import Mathlib

/-!
# Verification of svcore against its specification

Shallow embedding of the core of the svcore audio-analysis library
(EventSeries, AlignmentModel, CodedAudioFileReader,
FeatureExtractionModelTransformer) together with proofs settling the
frozen claims C1..C10.

Modelling conventions:
* machine integers (`sv_frame_t`, `long`, `size_t`) are modelled as `Int`
  (or `Nat` where the source guarantees non-negativity); overflow and
  `size_t` wraparound are not modelled;
* `float`/`double` arithmetic is modelled as exact rational arithmetic
  (`ℚ`); `lrintf`/`lrint` under the default rounding mode is modelled by
  round-half-to-even (`rnd` below);
* `std::vector` becomes `List`, `std::map`/`std::set` become sorted
  association lists / sorted duplicate-free lists, with iterator ranges
  re-expressed by key comparisons (valid because the maps are sorted).
-/

namespace Svcore

/-- `lrintf`/`lrint` under the default rounding mode (round to nearest,
ties to even), modelled on exact rationals. -/
def rnd (x : ℚ) : Int :=
  let f := ⌊x⌋
  let r := x - f
  if r < 1/2 then f
  else if 1/2 < r then f + 1
  else if f % 2 = 0 then f else f + 1

/-- `lrintf` never rounds below the floor. -/
theorem floor_le_rnd (x : ℚ) : ⌊x⌋ ≤ rnd x := by
  show ⌊x⌋ ≤ (if x - (⌊x⌋ : ℚ) < 1/2 then ⌊x⌋
    else if 1/2 < x - (⌊x⌋ : ℚ) then ⌊x⌋ + 1
    else if ⌊x⌋ % 2 = 0 then ⌊x⌋ else ⌊x⌋ + 1)
  split
  · omega
  · split
    · omega
    · split <;> omega

/-- `lrintf` never rounds above the floor plus one. -/
theorem rnd_le_floor_add_one (x : ℚ) : rnd x ≤ ⌊x⌋ + 1 := by
  show (if x - (⌊x⌋ : ℚ) < 1/2 then ⌊x⌋
    else if 1/2 < x - (⌊x⌋ : ℚ) then ⌊x⌋ + 1
    else if ⌊x⌋ % 2 = 0 then ⌊x⌋ else ⌊x⌋ + 1) ≤ ⌊x⌋ + 1
  split
  · omega
  · split
    · omega
    · split <;> omega

/-! ## Event

`Event` is declared in `Event.h`, which is not under `src/`.
Modelled from the spec: immutable value with fields `frame` (int64),
`duration` (int64 ≥ 0, "0 means durationless"), `value`, `level`
(floats, here modelled as `Int`; the ordering is all the code uses) and
`label` (string).  Ordering is lexicographic over
`(frame, duration, value, level, label)`; two events are equal iff all
fields match; negative durations are rejected by construction, so
`duration` is a `Nat` here. -/
structure Event where
  frame : Int
  duration : Nat
  value : Int
  level : Int
  label : String
deriving DecidableEq, Repr

namespace Event

/-- `Event::hasDuration()`: true iff the duration is nonzero. -/
def hasDuration (e : Event) : Bool := e.duration ≠ 0

/-- The `Event(sv_frame_t)` constructor: frame only, all other fields
defaulted. -/
def ofFrame (f : Int) : Event := ⟨f, 0, 0, 0, ""⟩

/-- Lexicographic key realising `Event::operator<`. -/
def key (e : Event) : Int ×ₗ (Nat ×ₗ (Int ×ₗ (Int ×ₗ String))) :=
  toLex (e.frame, toLex (e.duration, toLex (e.value, toLex (e.level, e.label))))

theorem key_injective : Function.Injective key := by
  intro a b h
  cases a; cases b
  simp only [key, toLex, Equiv.refl_apply, Prod.mk.injEq] at h
  simp_all

instance : LinearOrder Event := LinearOrder.lift' key key_injective

/-- A durationful event occupies the half-open interval
`[frame, frame+duration)`. -/
def covers (e : Event) (k : Int) : Prop :=
  e.frame ≤ k ∧ k < e.frame + e.duration

instance (e : Event) (k : Int) : Decidable (e.covers k) := by
  unfold covers; infer_instance

end Event

/-! ## EventSeries -/

/-- The seam (stabbing) index: `std::map<sv_frame_t, std::vector<Event>>`
modelled as an association list with strictly increasing keys. -/
abbrev Seams := List (Int × List Event)

/-- `EventSeries`: sorted multiset of events (`m_events`), seam map
(`m_seams`) and the largest frame among durationless events
(`m_finalDurationlessEventFrame`). -/
structure EventSeries where
  events : List Event
  seams : Seams
  finalDurationlessEventFrame : Int
deriving DecidableEq, Repr

namespace EventSeries

def empty : EventSeries := ⟨[], [], 0⟩

def isEmpty (s : EventSeries) : Bool := s.events.isEmpty

/-- Whether the seam map has an entry at key `k` (`m_seams.find(k) != end`). -/
def hasSeam (s : Seams) (k : Int) : Bool := s.any (fun kv => kv.1 = k)

/-- The seam list at the greatest key strictly below `k`, or `[]` if
there is none (relies on the keys being sorted, as they are in
`std::map`). -/
def seamListBelow (s : Seams) (k : Int) : List Event :=
  ((s.takeWhile (fun kv => kv.1 < k)).getLast?).elim [] Prod.snd

/-- Insert an entry into the seam map, keeping keys sorted
(`std::map` insertion). -/
def seamInsert (s : Seams) (k : Int) (l : List Event) : Seams :=
  s.takeWhile (fun kv => kv.1 < k) ++ (k, l) :: s.dropWhile (fun kv => kv.1 < k)

/-- `EventSeries::createSeam` is declared in `EventSeries.h`, which is
not under `src/`.  Modelled from the spec: "ensure seam keys exist at
both `f` and `f+d` (splitting inserts by copying the nearest-below
list)" — if a seam already exists at `k` it is left untouched, otherwise
a seam is created at `k` with a copy of the list at the nearest key
below `k` (empty if there is none). -/
def createSeam (s : Seams) (k : Int) : Seams :=
  if hasSeam s k then s else seamInsert s k (seamListBelow s k)

/-- `std::lower_bound` position split of the sorted event vector: the
events strictly below `p` (on a sorted list these form a prefix). -/
def lowerPre (l : List Event) (p : Event) : List Event :=
  l.takeWhile (fun x => decide (x < p))

def lowerSuf (l : List Event) (p : Event) : List Event :=
  l.dropWhile (fun x => decide (x < p))

/-- The `pitr == end || *pitr != p` test at a `lower_bound` position. -/
def headNe (l : List Event) (p : Event) : Bool :=
  match l with
  | [] => true
  | x :: _ => decide (x ≠ p)

/-- The seam-map update of `EventSeries::add` for the first instance of
a durationful event: create seams at `frame` and `endFrame`, then
append the event to every seam list at a key in `[frame, endFrame)`.
The iterator walk from `m_seams.find(frame)` to `m_seams.find(endFrame)`
is re-expressed as a map over the entries with key in that interval;
this is what the walk visits because both keys exist after `createSeam`
and the map is sorted. -/
def addSeams (sm : Seams) (p : Event) : Seams :=
  let f := p.frame
  let ef := p.frame + (p.duration : Int)
  let s1 := createSeam (createSeam sm f) ef
  s1.map (fun kv => if f ≤ kv.1 ∧ kv.1 < ef then (kv.1, kv.2 ++ [p]) else kv)

/-- `EventSeries::add` (src/unnamed/part_001 lines 32-75). -/
def add (s : EventSeries) (p : Event) : EventSeries :=
  let suf := lowerSuf s.events p
  let isUnique : Bool := headNe suf p
  let events' := lowerPre s.events p ++ p :: suf
  let fdl' :=
    if ¬p.hasDuration ∧ p.frame > s.finalDurationlessEventFrame
    then p.frame else s.finalDurationlessEventFrame
  let seams' := if p.hasDuration ∧ isUnique then addSeams s.seams p else s.seams
  ⟨events', seams', fdl'⟩

/-- The frame of the last durationless event in the (sorted) list, `0`
if there is none: the recomputation loop in `EventSeries::remove`. -/
def lastDurationlessFrame (l : List Event) : Int :=
  match (l.reverse.find? (fun e => ¬e.hasDuration)) with
  | none => 0
  | some e => e.frame

/-- The redundant-seam scan of `EventSeries::remove`: walk the seam map
comparing each entry with key in `[f, ef]` against its immediate
predecessor entry (whatever its key), collecting the keys of entries
whose list equals their predecessor's.  Expressed over the consecutive
pairs of the (sorted) seam map; the source's walk stops after the entry
at `i1 = m_seams.find(endFrame)`, which exists whenever the removed
event was present, and entries beyond it are never marked here either.
`seamsEqual` is declared in `EventSeries.h`, which is not under `src/`;
modelled from the spec: entries are redundant when "identical to their
predecessors", i.e. list equality. -/
def redundantKeys (t : Seams) (f ef : Int) : List Int :=
  (t.zip t.tail).filterMap
    (fun ab => if f ≤ ab.2.1 ∧ ab.2.1 ≤ ef ∧ ab.2.2 = ab.1.2 then some ab.2.1 else none)

/-- The seam-map cleanup of `EventSeries::remove` for the last instance
of a durationful event: erase all occurrences of the event from the
seam lists at keys in `[frame, endFrame)`, delete the seams that became
identical to their predecessors (scanning up to and including
`endFrame`), and drop empty seams from the front of the map.  The
erasure walk from `find(frame)` to `find(endFrame)` is re-expressed by
key comparison (both keys exist whenever the removed durationful event
was present, which is the only way to reach this branch). -/
def removeSeams (sm : Seams) (p : Event) : Seams :=
  let f := p.frame
  let ef := p.frame + (p.duration : Int)
  let t := sm.map
    (fun kv => if f ≤ kv.1 ∧ kv.1 < ef
               then (kv.1, kv.2.filter (fun e => decide (e ≠ p))) else kv)
  let red := redundantKeys t f ef
  let t2 := t.filter (fun kv => decide (kv.1 ∉ red))
  t2.dropWhile (fun kv => kv.2.isEmpty)

/-- `EventSeries::remove` (src/unnamed/part_001 lines 77-186). -/
def remove (s : EventSeries) (p : Event) : EventSeries :=
  match lowerSuf s.events p with
  | [] => s
  | x :: rest =>
    if x ≠ p then s else
    let isUnique : Bool := headNe rest p
    let events' := lowerPre s.events p ++ rest
    let fdl' :=
      if ¬p.hasDuration ∧ isUnique ∧ p.frame = s.finalDurationlessEventFrame
      then lastDurationlessFrame events'
      else s.finalDurationlessEventFrame
    let seams' := if p.hasDuration ∧ isUnique then removeSeams s.seams p else s.seams
    ⟨events', seams', fdl'⟩

/-- The seam entry used by point queries: the entry at the greatest key
`≤ p`, if any (`lower_bound` followed by the step-back adjustment in the
source, re-expressed on the sorted map). -/
def seamAtOrBelow (s : Seams) (p : Int) : Option (Int × List Event) :=
  (s.takeWhile (fun kv => kv.1 ≤ p)).getLast?

/-- Insertion into a sorted duplicate-free list: `std::set<Event>`. -/
def setInsert (l : List Event) (e : Event) : List Event :=
  if e ∈ l then l else lowerPre l e ++ e :: lowerSuf l e

/-- `EventSeries::getEventsCovering` (src/unnamed/part_001 lines
348-388): durationless events at exactly `frame`, then for every event
in the seam list at the greatest key `≤ frame` (collected through a
`std::set`), one copy per instance in `m_events`. -/
def getEventsCovering (s : EventSeries) (frame : Int) : List Event :=
  let durationless :=
    ((lowerSuf s.events (Event.ofFrame frame)).takeWhile
      (fun x => x.frame = frame)).filter (fun x => ¬x.hasDuration)
  let seamList :=
    match seamAtOrBelow s.seams frame with
    | none => []
    | some kv => kv.2
  let found := seamList.foldl setInsert []
  durationless ++ found.flatMap (fun q => s.events.filter (fun x => x = q))

/-! ### Ordering utilities on the sorted structures -/

/-- Entries of the seam map are ordered by strictly increasing key. -/
def keylt (a b : Int × List Event) : Prop := a.1 < b.1

/-- `k` is a key of the seam map. -/
def isKey (s : Seams) (k : Int) : Prop := ∃ l, (k, l) ∈ s

theorem hasSeam_iff {s : Seams} {k : Int} : hasSeam s k = true ↔ isKey s k := by
  simp only [hasSeam, List.any_eq_true, isKey, decide_eq_true_eq]
  constructor
  · rintro ⟨kv, hm, hk⟩
    exact ⟨kv.2, by simpa [← hk] using hm⟩
  · rintro ⟨l, hm⟩
    exact ⟨(k, l), hm, rfl⟩

theorem keys_unique {s : Seams} (hs : s.Pairwise keylt) {k : Int}
    {l l' : List Event} (h1 : (k, l) ∈ s) (h2 : (k, l') ∈ s) : l = l' := by
  induction s with
  | nil => cases h1
  | cons a t ih =>
      rw [List.pairwise_cons] at hs
      rcases List.mem_cons.1 h1 with h1 | h1 <;>
        rcases List.mem_cons.1 h2 with h2 | h2
      · rw [← h1] at h2; exact (Prod.mk.injEq _ _ _ _ ▸ h2).2.symm ▸ rfl
      · exact absurd (hs.1 _ h2) (by simp [keylt, ← h1])
      · exact absurd (hs.1 _ h1) (by simp [keylt, ← h2])
      · exact ih hs.2 h1 h2

/-- Elements of a `dropWhile` over a sorted list all fail the dropped
predicate, provided the predicate is downward closed. -/
theorem mem_dropWhile_not {α : Type _} {r : α → α → Prop} {p : α → Bool}
    (hp : ∀ a b, p a = false → r a b → p b = false) :
    ∀ {l : List α}, l.Pairwise r → ∀ x ∈ l.dropWhile p, p x = false := by
  intro l
  induction l with
  | nil => intro _ x hx; cases hx
  | cons a t ih =>
      intro hl x hx
      rw [List.pairwise_cons] at hl
      rw [List.dropWhile_cons] at hx
      by_cases hpa : p a = true
      · rw [if_pos hpa] at hx; exact ih hl.2 x hx
      · rw [if_neg hpa] at hx
        rcases List.mem_cons.1 hx with rfl | hx
        · exact Bool.eq_false_iff.2 hpa
        · exact hp a x (Bool.eq_false_iff.2 hpa) (hl.1 x hx)

/-- Every member of a sorted list satisfying a downward-closed predicate
lies in the `takeWhile` of that predicate. -/
theorem mem_takeWhile_of_mem {α : Type _} {r : α → α → Prop} {p : α → Bool}
    (hp : ∀ a b, p a = false → r a b → p b = false) :
    ∀ {l : List α}, l.Pairwise r → ∀ x ∈ l, p x = true → x ∈ l.takeWhile p := by
  intro l
  induction l with
  | nil => intro _ x hx; cases hx
  | cons a t ih =>
      intro hl x hx hpx
      rw [List.pairwise_cons] at hl
      rw [List.takeWhile_cons]
      by_cases hpa : p a = true
      · rw [if_pos hpa]
        rcases List.mem_cons.1 hx with rfl | hx
        · exact List.mem_cons_self _ _
        · exact List.mem_cons_of_mem _ (ih hl.2 x hx hpx)
      · rcases List.mem_cons.1 hx with rfl | hx
        · exact absurd hpx hpa
        · exact absurd hpx (by simp [hp a x (Bool.eq_false_iff.2 hpa) (hl.1 x hx)])

theorem pairwise_le_getLast {l : Seams} (hl : l.Pairwise keylt)
    {q : Int × List Event} (hq : l.getLast? = some q) :
    ∀ a ∈ l, a.1 ≤ q.1 := by
  obtain ⟨ys, rfl⟩ := List.getLast?_eq_some_iff.1 hq
  rw [List.pairwise_append] at hl
  intro a ha
  rcases List.mem_append.1 ha with ha | ha
  · exact le_of_lt (hl.2.2 a ha q (by simp))
  · simp only [List.mem_singleton] at ha; simp [ha]

theorem takeWhile_getLast_mem {s : Seams} {p : Int × List Event → Bool}
    {q : Int × List Event} (hq : (s.takeWhile p).getLast? = some q) :
    q ∈ s ∧ p q = true := by
  obtain ⟨ys, hys⟩ := List.getLast?_eq_some_iff.1 hq
  have hmem : q ∈ s.takeWhile p := by rw [hys]; simp
  exact ⟨(List.takeWhile_sublist p).mem hmem, List.mem_takeWhile_imp hmem⟩

theorem takeWhile_getLast_max {s : Seams} {p : Int × List Event → Bool}
    (hp : ∀ a b, p a = false → keylt a b → p b = false)
    (hs : s.Pairwise keylt)
    {q : Int × List Event} (hq : (s.takeWhile p).getLast? = some q) :
    ∀ kv ∈ s, p kv = true → kv.1 ≤ q.1 := by
  intro kv hkv hpkv
  exact pairwise_le_getLast (List.Pairwise.sublist (List.takeWhile_sublist p) hs)
    hq kv (mem_takeWhile_of_mem hp hs kv hkv hpkv)

theorem takeWhile_getLast_none {s : Seams} {p : Int × List Event → Bool}
    (hp : ∀ a b, p a = false → keylt a b → p b = false)
    (hs : s.Pairwise keylt)
    (hq : (s.takeWhile p).getLast? = none) :
    ∀ kv ∈ s, p kv = false := by
  intro kv hkv
  by_contra h
  have hpkv : p kv = true := by simpa using h
  have := mem_takeWhile_of_mem hp hs kv hkv hpkv
  rw [List.getLast?_eq_none_iff.1 hq] at this
  cases this

theorem head_min {s : Seams} (hs : s.Pairwise keylt)
    {h : Int × List Event} (hh : s.head? = some h) :
    h ∈ s ∧ ∀ kv ∈ s, h.1 ≤ kv.1 := by
  cases s with
  | nil => cases hh
  | cons a t =>
      rw [List.pairwise_cons] at hs
      simp only [List.head?_cons, Option.some.injEq] at hh
      subst hh
      refine ⟨List.mem_cons_self _ _, ?_⟩
      intro kv hkv
      rcases List.mem_cons.1 hkv with rfl | hkv
      · exact le_rfl
      · exact le_of_lt (hs.1 kv hkv)

theorem head_of_min {s : Seams} (hs : s.Pairwise keylt)
    {h : Int × List Event} (hmem : h ∈ s) (hmin : ∀ kv ∈ s, h.1 ≤ kv.1) :
    s.head? = some h := by
  cases s with
  | nil => cases hmem
  | cons a t =>
      rw [List.pairwise_cons] at hs
      rcases List.mem_cons.1 hmem with rfl | hmem
      · rfl
      · exact absurd (hmin a (List.mem_cons_self _ _))
          (by simp [not_le.2 (hs.1 h hmem)])

theorem head_dropWhile_not {α : Type _} {p : α → Bool} :
    ∀ {l : List α} {a : α}, (l.dropWhile p).head? = some a → p a = false := by
  intro l
  induction l with
  | nil => intro a h; cases h
  | cons x t ih =>
      intro a h
      rw [List.dropWhile_cons] at h
      by_cases hx : p x = true
      · rw [if_pos hx] at h; exact ih h
      · rw [if_neg hx] at h
        simp only [List.head?_cons, Option.some.injEq] at h
        subst h; exact Bool.eq_false_iff.2 hx

theorem mem_dropWhile_of_not {α : Type _} {p : α → Bool} :
    ∀ {l : List α} {x : α}, x ∈ l → p x = false → x ∈ l.dropWhile p := by
  intro l
  induction l with
  | nil => intro x hx; cases hx
  | cons a t ih =>
      intro x hx hpx
      rw [List.dropWhile_cons]
      by_cases hpa : p a = true
      · rw [if_pos hpa]
        rcases List.mem_cons.1 hx with rfl | hx
        · rw [hpx] at hpa; cases hpa
        · exact ih hx hpx
      · rw [if_neg hpa]; exact hx

theorem mem_dropWhile_of_lt {p : Int × List Event → Bool} :
    ∀ {l : Seams} {kv kv' : Int × List Event}, l.Pairwise keylt →
    kv ∈ l → kv' ∈ l → kv.1 < kv'.1 → p kv = false → kv' ∈ l.dropWhile p := by
  intro l
  induction l with
  | nil => intro kv kv' _ hm; cases hm
  | cons a t ih =>
      intro kv kv' hs hm hm' hlt hpkv
      rw [List.pairwise_cons] at hs
      rw [List.dropWhile_cons]
      by_cases hpa : p a = true
      · rw [if_pos hpa]
        have hkvt : kv ∈ t := by
          rcases List.mem_cons.1 hm with rfl | h
          · rw [hpkv] at hpa; cases hpa
          · exact h
        have hkv't : kv' ∈ t := by
          rcases List.mem_cons.1 hm' with rfl | h
          · exact absurd hlt (not_lt.2 (le_of_lt (hs.1 kv hkvt)))
          · exact h
        exact ih hs.2 hkvt hkv't hlt hpkv
      · rw [if_neg hpa]; exact hm'

/-- Adjacent pairs of the sorted seam map: both entries are present,
the keys increase, and no key lies strictly between them. -/
theorem zip_adjacent {t : Seams} (ht : t.Pairwise keylt)
    {a b : Int × List Event} (hab : (a, b) ∈ t.zip t.tail) :
    a ∈ t ∧ b ∈ t ∧ a.1 < b.1 ∧ ∀ kv ∈ t, ¬(a.1 < kv.1 ∧ kv.1 < b.1) := by
  induction t with
  | nil => cases hab
  | cons x rest ih =>
      cases rest with
      | nil => cases hab
      | cons y rest2 =>
          have hx : ∀ a' ∈ y :: rest2, keylt x a' := (List.pairwise_cons.1 ht).1
          have ht2 : (y :: rest2).Pairwise keylt := (List.pairwise_cons.1 ht).2
          have hy : ∀ a' ∈ rest2, keylt y a' := (List.pairwise_cons.1 ht2).1
          simp only [List.tail_cons, List.zip_cons_cons] at hab
          rcases List.mem_cons.1 hab with heq | hab'
          · have ha : a = x := congrArg Prod.fst heq
            have hb : b = y := congrArg Prod.snd heq
            subst ha; subst hb
            refine ⟨List.mem_cons_self _ _,
              List.mem_cons_of_mem _ (List.mem_cons_self _ _),
              hx b (List.mem_cons_self _ _), ?_⟩
            intro kv hkv hbet
            rcases List.mem_cons.1 hkv with rfl | hkv
            · exact absurd hbet.1 (lt_irrefl _)
            rcases List.mem_cons.1 hkv with rfl | hkv
            · exact absurd hbet.2 (lt_irrefl _)
            · exact absurd hbet.2 (not_lt.2 (le_of_lt (hy kv hkv)))
          · have hrest := ih ht2 hab'
            refine ⟨List.mem_cons_of_mem _ hrest.1, List.mem_cons_of_mem _ hrest.2.1,
              hrest.2.2.1, ?_⟩
            intro kv hkv hbet
            rcases List.mem_cons.1 hkv with rfl | hkv
            · exact absurd hbet.1 (not_lt.2 (le_of_lt (hx a hrest.1)))
            · exact hrest.2.2.2 kv hkv hbet

theorem mem_redundantKeys {t : Seams} {f ef k : Int} :
    k ∈ redundantKeys t f ef ↔
      ∃ a b, (a, b) ∈ t.zip t.tail ∧ b.1 = k ∧ f ≤ k ∧ k ≤ ef ∧ b.2 = a.2 := by
  simp only [redundantKeys, List.mem_filterMap]
  constructor
  · rintro ⟨⟨a, b⟩, hm, hif⟩
    by_cases hc : f ≤ b.1 ∧ b.1 ≤ ef ∧ b.2 = a.2
    · rw [if_pos hc] at hif
      obtain rfl : b.1 = k := by simpa using hif
      exact ⟨a, b, hm, rfl, hc.1, hc.2.1, hc.2.2⟩
    · rw [if_neg hc] at hif; cases hif
  · rintro ⟨a, b, hm, rfl, h1, h2, h3⟩
    exact ⟨(a, b), hm, by rw [if_pos ⟨h1, h2, h3⟩]⟩

/-! ### Lemmas about the sorted event vector -/

theorem covers_hasDuration {e : Event} {k : Int} (h : e.covers k) :
    e.hasDuration = true := by
  rcases h with ⟨h1, h2⟩
  by_contra h0
  simp only [Event.hasDuration, ne_eq, decide_eq_true_eq, Bool.not_eq_true,
    decide_eq_false_iff_not, not_not] at h0
  rw [h0] at h2
  omega

theorem not_covers_of_durationless {e : Event} {k : Int}
    (h : e.hasDuration = false) : ¬e.covers k := by
  intro hc
  rw [covers_hasDuration hc] at h
  cases h

theorem lowerPre_append_lowerSuf (l : List Event) (p : Event) :
    lowerPre l p ++ lowerSuf l p = l :=
  List.takeWhile_append_dropWhile _ _

theorem mem_lowerPre_lt {l : List Event} {p x : Event} (h : x ∈ lowerPre l p) :
    x < p := by
  have := List.mem_takeWhile_imp h
  simpa using this

theorem mem_lowerSuf_le {l : List Event} (hl : l.Sorted (· ≤ ·)) {p x : Event}
    (h : x ∈ lowerSuf l p) : p ≤ x := by
  have := mem_dropWhile_not (r := (· ≤ ·)) (p := fun x => decide (x < p))
    (by intro a b ha hab
        simp only [decide_eq_false_iff_not, not_lt] at ha ⊢
        exact le_trans ha hab) hl x h
  simp only [decide_eq_false_iff_not, not_lt] at this
  exact this

theorem sorted_insert {l : List Event} (hl : l.Sorted (· ≤ ·)) (p : Event) :
    (lowerPre l p ++ p :: lowerSuf l p).Sorted (· ≤ ·) := by
  rw [List.Sorted, List.pairwise_append]
  refine ⟨List.Pairwise.sublist (List.takeWhile_sublist _) hl, ?_, ?_⟩
  · rw [List.pairwise_cons]
    exact ⟨fun b hb => mem_lowerSuf_le hl hb,
      List.Pairwise.sublist (List.dropWhile_sublist _) hl⟩
  · intro a ha b hb
    have h1 : a < p := mem_lowerPre_lt ha
    rcases List.mem_cons.1 hb with rfl | hb
    · exact le_of_lt h1
    · exact le_trans (le_of_lt h1) (mem_lowerSuf_le hl hb)

theorem mem_insert_iff {l : List Event} {p x : Event} :
    x ∈ lowerPre l p ++ p :: lowerSuf l p ↔ x = p ∨ x ∈ l := by
  constructor
  · intro h
    rcases List.mem_append.1 h with h | h
    · exact Or.inr ((List.takeWhile_sublist _).mem h)
    · rcases List.mem_cons.1 h with rfl | h
      · exact Or.inl rfl
      · exact Or.inr ((List.dropWhile_sublist _).mem h)
  · intro h
    rcases h with rfl | h
    · exact List.mem_append.2 (Or.inr (List.mem_cons_self _ _))
    · rw [← lowerPre_append_lowerSuf l p] at h
      rcases List.mem_append.1 h with h | h
      · exact List.mem_append.2 (Or.inl h)
      · exact List.mem_append.2 (Or.inr (List.mem_cons_of_mem _ h))

theorem perm_insert (l : List Event) (p : Event) :
    (lowerPre l p ++ p :: lowerSuf l p).Perm (p :: l) := by
  have := @List.perm_middle _ p (lowerPre l p) (lowerSuf l p)
  rw [lowerPre_append_lowerSuf] at this
  exact this

theorem mem_iff_lowerSuf_head {p : Event} :
    ∀ {l : List Event}, l.Sorted (· ≤ ·) →
      (p ∈ l ↔ (lowerSuf l p).head? = some p) := by
  intro l
  induction l with
  | nil => intro _; simp [lowerSuf]
  | cons a t ih =>
      intro hl
      have hl' := List.sorted_cons.1 hl
      unfold lowerSuf
      rw [List.dropWhile_cons]
      by_cases hap : a < p
      · rw [if_pos (by simpa using hap)]
        rw [show List.dropWhile (fun x => decide (x < p)) t = lowerSuf t p from rfl]
        rw [← ih hl'.2]
        simp only [List.mem_cons]
        constructor
        · rintro (rfl | h)
          · exact absurd hap (lt_irrefl _)
          · exact h
        · exact Or.inr
      · rw [if_neg (by simpa using hap)]
        simp only [List.head?_cons, Option.some.injEq, List.mem_cons]
        constructor
        · rintro (rfl | h)
          · rfl
          · exact (le_antisymm (not_lt.1 hap) (hl'.1 p h)).symm
        · intro h; exact Or.inl h.symm

/-- The `isUnique` test in `EventSeries::add` detects exactly the first
instance of an event. -/
theorem add_isUnique_iff {l : List Event} (hl : l.Sorted (· ≤ ·)) (p : Event) :
    headNe (lowerSuf l p) p = true ↔ p ∉ l := by
  rw [mem_iff_lowerSuf_head hl]
  cases hsuf : lowerSuf l p with
  | nil => simp [headNe]
  | cons x t => simp [headNe]

theorem lowerSuf_eq_cons {l : List Event} {p x : Event} {rest : List Event}
    (h : lowerSuf l p = x :: rest) : l = lowerPre l p ++ x :: rest := by
  rw [← h, lowerPre_append_lowerSuf]

/-- The `isUnique` test in `EventSeries::remove`. -/
theorem remove_isUnique_iff {l : List Event} (hl : l.Sorted (· ≤ ·)) {p : Event}
    {rest : List Event} (h : lowerSuf l p = p :: rest) :
    headNe rest p = true ↔ p ∉ lowerPre l p ++ rest := by
  have hpre : ∀ x ∈ lowerPre l p, x ≠ p := by
    intro x hx
    exact ne_of_lt (mem_lowerPre_lt hx)
  have hsorted : (p :: rest).Sorted (· ≤ ·) := by
    rw [← h]
    exact List.Pairwise.sublist (List.dropWhile_sublist _) hl
  have hge : ∀ b ∈ rest, p ≤ b := (List.sorted_cons.1 hsorted).1
  have hsorted2 : rest.Sorted (· ≤ ·) := (List.sorted_cons.1 hsorted).2
  clear h hsorted
  cases rest with
  | nil =>
      simp only [List.append_nil, headNe]
      constructor
      · intro _ hmem
        exact hpre p hmem rfl
      · intro _; trivial
  | cons y t =>
      simp only [headNe, decide_eq_true_eq]
      constructor
      · intro hyp hmem
        rcases List.mem_append.1 hmem with hm | hm
        · exact hpre p hm rfl
        · rcases List.mem_cons.1 hm with rfl | hm
          · exact hyp rfl
          · -- p ∈ t: then y ≤ p and p ≤ y, so y = p
            have h1 : y ≤ p := (List.sorted_cons.1 hsorted2).1 p hm
            have h2 : p ≤ y := hge y (List.mem_cons_self _ _)
            exact hyp (le_antisymm h1 h2)
      · intro hmem hyp
        rw [hyp] at hmem
        exact hmem (List.mem_append.2 (Or.inr (List.mem_cons_self _ _)))

/-- When the `lowerSuf` head is not `p` (or absent), `p` is not in the
sorted list: the early return of `EventSeries::remove`. -/
theorem not_mem_of_head_ne {l : List Event} (hl : l.Sorted (· ≤ ·)) {p : Event} :
    (lowerSuf l p = [] → p ∉ l) ∧
    (∀ x rest, lowerSuf l p = x :: rest → x ≠ p → p ∉ l) := by
  constructor
  · intro h hp
    rw [mem_iff_lowerSuf_head hl, h] at hp
    cases hp
  · intro x rest h hne hp
    rw [mem_iff_lowerSuf_head hl, h] at hp
    simp only [List.head?_cons, Option.some.injEq] at hp
    exact hne hp

/-! ### Lemmas about the seam-map operations -/

theorem mem_seamInsert {s : Seams} {k : Int} {l : List Event}
    {kv : Int × List Event} :
    kv ∈ seamInsert s k l ↔ kv = (k, l) ∨ kv ∈ s := by
  unfold seamInsert
  constructor
  · intro h
    rcases List.mem_append.1 h with h | h
    · exact Or.inr ((List.takeWhile_sublist _).mem h)
    · rcases List.mem_cons.1 h with rfl | h
      · exact Or.inl rfl
      · exact Or.inr ((List.dropWhile_sublist _).mem h)
  · intro h
    rcases h with rfl | h
    · exact List.mem_append.2 (Or.inr (List.mem_cons_self _ _))
    · conv at h => rw [← List.takeWhile_append_dropWhile
        (p := fun kv : Int × List Event => decide (kv.1 < k)) (l := s)]
      rcases List.mem_append.1 h with h | h
      · exact List.mem_append.2 (Or.inl h)
      · exact List.mem_append.2 (Or.inr (List.mem_cons_of_mem _ h))

theorem pairwise_seamInsert {s : Seams} (hs : s.Pairwise keylt) {k : Int}
    (hk : ¬isKey s k) (l : List Event) :
    (seamInsert s k l).Pairwise keylt := by
  unfold seamInsert
  rw [List.pairwise_append]
  have hdrop : ∀ kv ∈ s.dropWhile (fun kv => decide (kv.1 < k)), k < kv.1 := by
    intro kv hkv
    have h1 := mem_dropWhile_not (r := keylt)
      (p := fun kv : Int × List Event => decide (kv.1 < k))
      (by intro a b ha hab
          simp only [decide_eq_false_iff_not, not_lt] at ha ⊢
          exact le_trans ha (le_of_lt hab)) hs kv hkv
    simp only [decide_eq_false_iff_not, not_lt] at h1
    rcases lt_or_eq_of_le h1 with h | h
    · exact h
    · exact absurd ⟨kv.2, by rw [h]; exact (List.dropWhile_sublist _).mem hkv⟩ hk
  refine ⟨List.Pairwise.sublist (List.takeWhile_sublist _) hs, ?_, ?_⟩
  · rw [List.pairwise_cons]
    exact ⟨fun kv hkv => hdrop kv hkv,
      List.Pairwise.sublist (List.dropWhile_sublist _) hs⟩
  · intro a ha b hb
    have h1 : a.1 < k := by simpa using List.mem_takeWhile_imp ha
    rcases List.mem_cons.1 hb with rfl | hb
    · exact h1
    · exact lt_trans h1 (hdrop b hb)

theorem mem_createSeam {s : Seams} {k : Int} {kv : Int × List Event} :
    kv ∈ createSeam s k ↔
      (hasSeam s k = false ∧ kv = (k, seamListBelow s k)) ∨ kv ∈ s := by
  unfold createSeam
  by_cases h : hasSeam s k
  · simp [h]
  · simp only [if_neg h, mem_seamInsert]
    simp only [Bool.not_eq_true] at h
    simp [h]

theorem pairwise_createSeam {s : Seams} (hs : s.Pairwise keylt) (k : Int) :
    (createSeam s k).Pairwise keylt := by
  unfold createSeam
  by_cases h : hasSeam s k
  · simpa [h]
  · rw [if_neg h]
    exact pairwise_seamInsert hs (fun hk => h (hasSeam_iff.2 hk)) _

theorem isKey_createSeam {s : Seams} {k k' : Int} :
    isKey (createSeam s k) k' ↔ k' = k ∨ isKey s k' := by
  constructor
  · rintro ⟨l, hm⟩
    rcases mem_createSeam.1 hm with ⟨_, heq⟩ | hm
    · exact Or.inl (congrArg Prod.fst heq)
    · exact Or.inr ⟨l, hm⟩
  · rintro (rfl | ⟨l, hm⟩)
    · unfold createSeam
      by_cases h : hasSeam s k'
      · rw [if_pos h]; exact hasSeam_iff.1 h
      · rw [if_neg h]
        exact ⟨seamListBelow s k', mem_seamInsert.2 (Or.inl rfl)⟩
    · unfold createSeam
      by_cases h : hasSeam s k
      · rw [if_pos h]; exact ⟨l, hm⟩
      · rw [if_neg h]; exact ⟨l, mem_seamInsert.2 (Or.inr hm)⟩

theorem isKey_self_createSeam (s : Seams) (k : Int) :
    isKey (createSeam s k) k := isKey_createSeam.2 (Or.inl rfl)

/-! ### The representation invariant -/

/-- Coherence of a seam map with an event list: every seam list holds
exactly the present durationful events that are active immediately
after its key. -/
def Coh (sm : Seams) (E : List Event) : Prop :=
  ∀ kv ∈ sm, ∀ e : Event, e ∈ kv.2 ↔ (e ∈ E ∧ e.covers kv.1)

/-- Every present durationful event has seam keys at both its start and
its end frame. -/
def Bounds (sm : Seams) (E : List Event) : Prop :=
  ∀ e ∈ E, e.hasDuration = true →
    isKey sm e.frame ∧ isKey sm (e.frame + (e.duration : Int))

/-- Representation invariant of `EventSeries`, maintained by `add` and
`remove`. -/
structure Inv (s : EventSeries) : Prop where
  sortedEvents : s.events.Sorted (· ≤ ·)
  sortedSeams : s.seams.Pairwise keylt
  coh : Coh s.seams s.events
  bounds : Bounds s.seams s.events
  front : ∀ kv : Int × List Event, s.seams.head? = some kv → kv.2 ≠ []

theorem inv_empty : Inv empty := by
  refine ⟨List.sorted_nil, List.Pairwise.nil, ?_, ?_, ?_⟩
  · intro kv hkv; cases hkv
  · intro e he; cases he
  · intro kv hkv; cases hkv

/-! ### Transfer of coverage across a fresh seam key -/

theorem seam_pred_mono {k : Int} :
    ∀ a b : Int × List Event, (fun kv : Int × List Event => decide (kv.1 < k)) a = false →
      keylt a b → (fun kv : Int × List Event => decide (kv.1 < k)) b = false := by
  intro a b ha hab
  simp only [decide_eq_false_iff_not, not_lt] at ha ⊢
  exact le_trans ha (le_of_lt hab)

/-- If `k` is not a seam key and `q` is the entry at the greatest key
below `k`, then an event whose boundaries are seam keys covers `k` iff
it covers `q`'s key. -/
theorem covers_transfer_below {sm : Seams} (hs : sm.Pairwise keylt)
    {k : Int} (hk : ¬isKey sm k)
    {q : Int × List Event}
    (hq : (sm.takeWhile (fun kv => decide (kv.1 < k))).getLast? = some q)
    {e : Event} (hf : isKey sm e.frame)
    (hef : isKey sm (e.frame + (e.duration : Int))) :
    e.covers k ↔ e.covers q.1 := by
  obtain ⟨hqmem, hqlt'⟩ := takeWhile_getLast_mem hq
  have hqlt : q.1 < k := by simpa using hqlt'
  have hmax : ∀ kv ∈ sm, kv.1 < k → kv.1 ≤ q.1 := by
    intro kv hkv hlt
    exact takeWhile_getLast_max seam_pred_mono hs hq kv hkv (by simpa using hlt)
  obtain ⟨lf, hlf⟩ := hf
  obtain ⟨lef, hlef⟩ := hef
  constructor
  · rintro ⟨h1, h2⟩
    have hfk : e.frame ≠ k := fun hh => hk ⟨lf, by rw [← hh]; exact hlf⟩
    have hfq : e.frame ≤ q.1 := hmax (e.frame, lf) hlf (lt_of_le_of_ne h1 hfk)
    exact ⟨hfq, lt_trans hqlt h2⟩
  · rintro ⟨h1, h2⟩
    have hefk : e.frame + (e.duration : Int) ≠ k := fun hh => hk ⟨lef, by rw [← hh]; exact hlef⟩
    have hh : ¬(e.frame + (e.duration : Int) < k) := by
      intro hlt
      exact absurd (hmax _ hlef hlt) (not_le.2 h2)
    refine ⟨le_trans h1 (le_of_lt hqlt), ?_⟩
    omega

/-- If `k` is not a seam key and no key lies below it, no event whose
start frame is a seam key covers `k`. -/
theorem covers_none_below {sm : Seams} (hs : sm.Pairwise keylt)
    {k : Int} (hk : ¬isKey sm k)
    (hnone : (sm.takeWhile (fun kv => decide (kv.1 < k))).getLast? = none)
    {e : Event} (hf : isKey sm e.frame) :
    ¬e.covers k := by
  rintro ⟨h1, _⟩
  obtain ⟨lf, hlf⟩ := hf
  have hfk : e.frame ≠ k := fun hh => hk ⟨lf, by rw [← hh]; exact hlf⟩
  have := takeWhile_getLast_none seam_pred_mono hs
    (by rw [hnone]) (e.frame, lf) hlf
  simp only [decide_eq_false_iff_not, not_lt] at this
  omega

/-- `createSeam` preserves coherence: the fresh seam copies the list of
its nearest predecessor, which holds exactly the right events. -/
theorem coh_createSeam {sm : Seams} {E : List Event} (hs : sm.Pairwise keylt)
    (hcoh : Coh sm E) (hbounds : Bounds sm E) (k : Int) :
    Coh (createSeam sm k) E := by
  intro kv hkv e
  rcases mem_createSeam.1 hkv with ⟨hno, rfl⟩ | hkv
  · have hnk : ¬isKey sm k := fun hk => by rw [hasSeam_iff.2 hk] at hno; cases hno
    cases hB : (sm.takeWhile (fun kv => decide (kv.1 < k))).getLast? with
    | some q =>
        have hlist : seamListBelow sm k = q.2 := by
          unfold seamListBelow; rw [hB]; rfl
        rw [hlist]
        obtain ⟨hqmem, _⟩ := takeWhile_getLast_mem hB
        rw [hcoh q hqmem e]
        constructor
        · rintro ⟨he, hc⟩
          have hd := covers_hasDuration hc
          obtain ⟨hf, hef⟩ := hbounds e he hd
          exact ⟨he, (covers_transfer_below hs hnk hB hf hef).2 hc⟩
        · rintro ⟨he, hc⟩
          have hd := covers_hasDuration hc
          obtain ⟨hf, hef⟩ := hbounds e he hd
          exact ⟨he, (covers_transfer_below hs hnk hB hf hef).1 hc⟩
    | none =>
        have hlist : seamListBelow sm k = [] := by
          unfold seamListBelow; rw [hB]; rfl
        rw [hlist]
        simp only [List.not_mem_nil, false_iff, not_and]
        intro he hc
        have hd := covers_hasDuration hc
        obtain ⟨hf, _⟩ := hbounds e he hd
        exact covers_none_below hs hnk hB hf hc
  · exact hcoh kv hkv e

theorem bounds_mono {sm sm' : Seams} {E : List Event}
    (hkeys : ∀ k, isKey sm k → isKey sm' k) (hb : Bounds sm E) : Bounds sm' E := by
  intro e he hd
  obtain ⟨h1, h2⟩ := hb e he hd
  exact ⟨hkeys _ h1, hkeys _ h2⟩

/-! ### `add` preserves the invariant -/

theorem add_events_def (s : EventSeries) (p : Event) :
    (s.add p).events = lowerPre s.events p ++ p :: lowerSuf s.events p := rfl

theorem add_seams_def (s : EventSeries) (p : Event) :
    (s.add p).seams =
      if p.hasDuration = true ∧ headNe (lowerSuf s.events p) p = true
      then addSeams s.seams p else s.seams := rfl

theorem pairwise_map_keyfix {sm : Seams} (hs : sm.Pairwise keylt)
    {g : Int × List Event → Int × List Event} (hg : ∀ kv, (g kv).1 = kv.1) :
    (sm.map g).Pairwise keylt := by
  refine List.Pairwise.map g ?_ hs
  intro a b hab
  show (g a).1 < (g b).1
  rw [hg, hg]
  exact hab

theorem isKey_map_keyfix {sm : Seams} {g : Int × List Event → Int × List Event}
    (hg : ∀ kv, (g kv).1 = kv.1) {k : Int} :
    isKey (sm.map g) k ↔ isKey sm k := by
  constructor
  · rintro ⟨l, hm⟩
    obtain ⟨kv, hkv, heq⟩ := List.mem_map.1 hm
    have hfst : kv.1 = k := by rw [← hg kv, heq]
    exact ⟨kv.2, by rw [← hfst]; simpa using hkv⟩
  · rintro ⟨l, hm⟩
    refine ⟨(g (k, l)).2, ?_⟩
    have h1 : g (k, l) ∈ sm.map g := List.mem_map_of_mem g hm
    have h2 : g (k, l) = (k, (g (k, l)).2) := by
      apply Prod.ext
      · exact hg (k, l)
      · rfl
    rwa [h2] at h1

theorem mem_addSeams_lift {sm : Seams} {p : Event} {kv : Int × List Event}
    (h : kv ∈ sm) :
    kv ∈ createSeam (createSeam sm p.frame) (p.frame + (p.duration : Int)) :=
  mem_createSeam.2 (Or.inr (mem_createSeam.2 (Or.inr h)))

theorem add_inv {s : EventSeries} (h : Inv s) (p : Event) : Inv (s.add p) := by
  have hmemE' : ∀ e : Event, e ∈ (s.add p).events ↔ e = p ∨ e ∈ s.events := by
    intro e; rw [add_events_def]; exact mem_insert_iff
  have hsortE : (s.add p).events.Sorted (· ≤ ·) := by
    rw [add_events_def]; exact sorted_insert h.sortedEvents p
  by_cases hcond : p.hasDuration = true ∧ headNe (lowerSuf s.events p) p = true
  · -- first instance of a durationful event: the seam map is rebuilt
    obtain ⟨hd, hu⟩ := hcond
    have hpnotE : p ∉ s.events := (add_isUnique_iff h.sortedEvents p).1 hu
    have hsm : (s.add p).seams = addSeams s.seams p := by
      rw [add_seams_def, if_pos ⟨hd, hu⟩]
    have hdurpos : (0 : Int) < (p.duration : Int) := by
      have : p.duration ≠ 0 := by simpa [Event.hasDuration] using hd
      omega
    have hs1p : (createSeam (createSeam s.seams p.frame)
        (p.frame + (p.duration : Int))).Pairwise keylt :=
      pairwise_createSeam (pairwise_createSeam h.sortedSeams _) _
    have hcoh2 : Coh (createSeam (createSeam s.seams p.frame)
        (p.frame + (p.duration : Int))) s.events :=
      coh_createSeam (pairwise_createSeam h.sortedSeams _)
        (coh_createSeam h.sortedSeams h.coh h.bounds _)
        (bounds_mono (fun k hk => isKey_createSeam.2 (Or.inr hk)) h.bounds) _
    have hgfst : ∀ kv : Int × List Event,
        ((if p.frame ≤ kv.1 ∧ kv.1 < p.frame + (p.duration : Int)
          then (kv.1, kv.2 ++ [p]) else kv)).1 = kv.1 := by
      intro kv; split <;> rfl
    have haddSeams_eq : addSeams s.seams p =
        (createSeam (createSeam s.seams p.frame) (p.frame + (p.duration : Int))).map
        (fun kv => if p.frame ≤ kv.1 ∧ kv.1 < p.frame + (p.duration : Int)
                   then (kv.1, kv.2 ++ [p]) else kv) := rfl
    have hfkey : isKey (createSeam (createSeam s.seams p.frame)
        (p.frame + (p.duration : Int))) p.frame :=
      isKey_createSeam.2 (Or.inr (isKey_self_createSeam _ _))
    have hefkey : isKey (createSeam (createSeam s.seams p.frame)
        (p.frame + (p.duration : Int))) (p.frame + (p.duration : Int)) :=
      isKey_self_createSeam _ _
    refine ⟨hsortE, ?_, ?_, ?_, ?_⟩
    · rw [hsm, haddSeams_eq]
      exact pairwise_map_keyfix hs1p hgfst
    · intro kv hkv e
      rw [hsm, haddSeams_eq] at hkv
      obtain ⟨kv0, hkv0, rfl⟩ := List.mem_map.1 hkv
      rw [hmemE' e]
      by_cases hir : p.frame ≤ kv0.1 ∧ kv0.1 < p.frame + (p.duration : Int)
      · rw [if_pos hir]
        simp only [List.mem_append, List.mem_singleton]
        constructor
        · rintro (hel | rfl)
          · obtain ⟨he, hc⟩ := (hcoh2 kv0 hkv0 e).1 hel
            exact ⟨Or.inr he, hc⟩
          · exact ⟨Or.inl rfl, hir⟩
        · rintro ⟨rfl | he, hc⟩
          · exact Or.inr rfl
          · exact Or.inl ((hcoh2 kv0 hkv0 e).2 ⟨he, hc⟩)
      · rw [if_neg hir]
        constructor
        · intro hel
          obtain ⟨he, hc⟩ := (hcoh2 kv0 hkv0 e).1 hel
          exact ⟨Or.inr he, hc⟩
        · rintro ⟨rfl | he, hc⟩
          · exact absurd hc hir
          · exact (hcoh2 kv0 hkv0 e).2 ⟨he, hc⟩
    · intro e he hd'
      rw [hmemE' e] at he
      rw [hsm, haddSeams_eq]
      have hkeys : ∀ k, isKey (createSeam (createSeam s.seams p.frame)
          (p.frame + (p.duration : Int))) k →
          isKey ((createSeam (createSeam s.seams p.frame)
            (p.frame + (p.duration : Int))).map
            (fun kv => if p.frame ≤ kv.1 ∧ kv.1 < p.frame + (p.duration : Int)
                       then (kv.1, kv.2 ++ [p]) else kv)) k :=
        fun k hk => (isKey_map_keyfix hgfst).2 hk
      rcases he with rfl | he
      · exact ⟨hkeys _ hfkey, hkeys _ hefkey⟩
      · obtain ⟨h1, h2⟩ := h.bounds e he hd'
        have lift : ∀ k, isKey s.seams k → isKey (createSeam (createSeam s.seams p.frame)
            (p.frame + (p.duration : Int))) k := fun k hk =>
          isKey_createSeam.2 (Or.inr (isKey_createSeam.2 (Or.inr hk)))
        exact ⟨hkeys _ (lift _ h1), hkeys _ (lift _ h2)⟩
    · intro kv hkv
      rw [hsm, haddSeams_eq, List.head?_map] at hkv
      cases hh : (createSeam (createSeam s.seams p.frame)
          (p.frame + (p.duration : Int))).head? with
      | none => rw [hh] at hkv; cases hkv
      | some kv0 =>
          rw [hh] at hkv
          simp only [Option.map_some', Option.some.injEq] at hkv
          subst hkv
          obtain ⟨hkv0mem, hkv0min⟩ := head_min hs1p hh
          by_cases hir : p.frame ≤ kv0.1 ∧ kv0.1 < p.frame + (p.duration : Int)
          · rw [if_pos hir]
            simp
          · rw [if_neg hir]
            rcases not_and_or.1 hir with hlt | hge
            · have hlt' : kv0.1 < p.frame := by omega
              have hkv0s : kv0 ∈ s.seams := by
                rcases mem_createSeam.1 hkv0mem with ⟨_, heq⟩ | hmem
                · exfalso
                  have : kv0.1 = p.frame + (p.duration : Int) := congrArg Prod.fst heq
                  omega
                · rcases mem_createSeam.1 hmem with ⟨_, heq⟩ | hmem2
                  · exfalso
                    have : kv0.1 = p.frame := congrArg Prod.fst heq
                    omega
                  · exact hmem2
              have hmin_s : ∀ kv' ∈ s.seams, kv0.1 ≤ kv'.1 := by
                intro kv' hkv'
                exact hkv0min kv' (mem_addSeams_lift hkv')
              exact h.front kv0 (head_of_min h.sortedSeams hkv0s hmin_s)
            · exfalso
              obtain ⟨lf, hlf⟩ := hfkey
              have := hkv0min (p.frame, lf) hlf
              simp only at this
              omega
  · -- seams unchanged
    have hsm : (s.add p).seams = s.seams := by
      rw [add_seams_def, if_neg hcond]
    refine ⟨hsortE, ?_, ?_, ?_, ?_⟩
    · rw [hsm]; exact h.sortedSeams
    · intro kv hkv e
      rw [hsm] at hkv
      rw [hmemE' e]
      have old := h.coh kv hkv e
      constructor
      · intro hel
        obtain ⟨he, hc⟩ := old.1 hel
        exact ⟨Or.inr he, hc⟩
      · rintro ⟨rfl | he, hc⟩
        · rcases not_and_or.1 hcond with hnd | hnu
          · exact absurd (covers_hasDuration hc) hnd
          · have hpE : e ∈ s.events := by
              by_contra hpe
              exact hnu ((add_isUnique_iff h.sortedEvents e).2 hpe)
            exact old.2 ⟨hpE, hc⟩
        · exact old.2 ⟨he, hc⟩
    · intro e he hd'
      rw [hsm]
      rw [hmemE' e] at he
      rcases he with rfl | he
      · rcases not_and_or.1 hcond with hnd | hnu
        · exact absurd hd' hnd
        · have hpE : e ∈ s.events := by
            by_contra hpe
            exact hnu ((add_isUnique_iff h.sortedEvents e).2 hpe)
          exact h.bounds e hpE hd'
      · exact h.bounds e he hd'
    · intro kv hkv
      rw [hsm] at hkv
      exact h.front kv hkv

/-! ### `remove` preserves the invariant -/

theorem remove_eq_nil {s : EventSeries} {p : Event}
    (hsuf : lowerSuf s.events p = []) : s.remove p = s := by
  unfold remove
  rw [hsuf]

theorem remove_eq_ne {s : EventSeries} {p x : Event} {rest : List Event}
    (hsuf : lowerSuf s.events p = x :: rest) (hx : x ≠ p) : s.remove p = s := by
  unfold remove
  rw [hsuf]
  simp [hx]

theorem remove_found_events {s : EventSeries} {p : Event} {rest : List Event}
    (hsuf : lowerSuf s.events p = p :: rest) :
    (s.remove p).events = lowerPre s.events p ++ rest := by
  unfold remove
  rw [hsuf]
  simp

theorem remove_found_seams {s : EventSeries} {p : Event} {rest : List Event}
    (hsuf : lowerSuf s.events p = p :: rest) :
    (s.remove p).seams =
      if p.hasDuration = true ∧ headNe rest p = true
      then removeSeams s.seams p else s.seams := by
  unfold remove
  rw [hsuf]
  simp

theorem headNe_false_mem {rest : List Event} {p : Event}
    (h : headNe rest p = false) : p ∈ rest := by
  cases rest with
  | nil => cases h
  | cons y t =>
      simp only [headNe, decide_eq_false_iff_not, not_not] at h
      rw [← h]
      exact List.mem_cons_self _ _

theorem remove_inv {s : EventSeries} (h : Inv s) (p : Event) : Inv (s.remove p) := by
  cases hsuf : lowerSuf s.events p with
  | nil => rw [remove_eq_nil hsuf]; exact h
  | cons x rest =>
      by_cases hx : x = p
      case neg => rw [remove_eq_ne hsuf hx]; exact h
      case pos =>
        subst hx
        have hleq : s.events = lowerPre s.events x ++ x :: rest := lowerSuf_eq_cons hsuf
        have hevents : (s.remove x).events = lowerPre s.events x ++ rest :=
          remove_found_events hsuf
        have hsub : ((s.remove x).events).Sublist s.events := by
          rw [hevents]
          conv_rhs => rw [hleq]
          exact List.Sublist.append_left (List.sublist_cons_self x rest) _
        have hsorted' : (s.remove x).events.Sorted (· ≤ ·) :=
          List.Pairwise.sublist hsub h.sortedEvents
        have hppres : x ∈ s.events := by
          rw [hleq]
          exact List.mem_append.2 (Or.inr (List.mem_cons_self _ _))
        by_cases hcond : x.hasDuration = true ∧ headNe rest x = true
        · -- last instance of a durationful event: seam cleanup runs
          obtain ⟨hd, hu⟩ := hcond
          have hpnot' : x ∉ lowerPre s.events x ++ rest :=
            (remove_isUnique_iff h.sortedEvents hsuf).1 hu
          have hmemE' : ∀ e : Event,
              e ∈ (s.remove x).events ↔ e ∈ s.events ∧ e ≠ x := by
            intro e
            rw [hevents]
            constructor
            · intro he
              refine ⟨?_, ?_⟩
              · rw [hleq]
                rcases List.mem_append.1 he with he | he
                · exact List.mem_append.2 (Or.inl he)
                · exact List.mem_append.2 (Or.inr (List.mem_cons_of_mem _ he))
              · intro heq
                rw [heq] at he
                exact hpnot' he
            · rintro ⟨he, hne⟩
              rw [hleq] at he
              rcases List.mem_append.1 he with he | he
              · exact List.mem_append.2 (Or.inl he)
              · rcases List.mem_cons.1 he with rfl | he
                · exact absurd rfl hne
                · exact List.mem_append.2 (Or.inr he)
          have hseams : (s.remove x).seams = removeSeams s.seams x := by
            rw [remove_found_seams hsuf, if_pos ⟨hd, hu⟩]
          have hdurpos : (0 : Int) < (x.duration : Int) := by
            have : x.duration ≠ 0 := by simpa [Event.hasDuration] using hd
            omega
          -- work over the erased map t
          have hgfst : ∀ kv : Int × List Event,
              ((if x.frame ≤ kv.1 ∧ kv.1 < x.frame + (x.duration : Int)
                then (kv.1, kv.2.filter (fun e => decide (e ≠ x))) else kv)).1 = kv.1 := by
            intro kv; split <;> rfl
          have hremoveSeams_eq : removeSeams s.seams x =
              ((s.seams.map (fun kv =>
                if x.frame ≤ kv.1 ∧ kv.1 < x.frame + (x.duration : Int)
                then (kv.1, kv.2.filter (fun e => decide (e ≠ x))) else kv)).filter
                  (fun kv => decide (kv.1 ∉ redundantKeys
                    (s.seams.map (fun kv =>
                      if x.frame ≤ kv.1 ∧ kv.1 < x.frame + (x.duration : Int)
                      then (kv.1, kv.2.filter (fun e => decide (e ≠ x))) else kv))
                    x.frame (x.frame + (x.duration : Int))))).dropWhile
                (fun kv => kv.2.isEmpty) := rfl
          set t := s.seams.map (fun kv =>
            if x.frame ≤ kv.1 ∧ kv.1 < x.frame + (x.duration : Int)
            then (kv.1, kv.2.filter (fun e => decide (e ≠ x))) else kv) with ht
          set red := redundantKeys t x.frame (x.frame + (x.duration : Int)) with hred
          set t2 := t.filter (fun kv => decide (kv.1 ∉ red)) with ht2
          have hpairwise_t : t.Pairwise keylt := pairwise_map_keyfix h.sortedSeams hgfst
          have hkeys_t : ∀ k, isKey t k ↔ isKey s.seams k :=
            fun k => isKey_map_keyfix hgfst
          have hcoh_t : Coh t (s.remove x).events := by
            intro kv hkv e
            rw [hmemE' e]
            obtain ⟨kv0, hkv0, rfl⟩ := List.mem_map.1 hkv
            by_cases hir : x.frame ≤ kv0.1 ∧ kv0.1 < x.frame + (x.duration : Int)
            · rw [if_pos hir]
              simp only [List.mem_filter, decide_eq_true_eq]
              rw [h.coh kv0 hkv0 e]
              constructor
              · rintro ⟨⟨he, hc⟩, hne⟩
                exact ⟨⟨he, hne⟩, hc⟩
              · rintro ⟨⟨he, hne⟩, hc⟩
                exact ⟨⟨he, hc⟩, hne⟩
            · rw [if_neg hir]
              rw [h.coh kv0 hkv0 e]
              constructor
              · rintro ⟨he, hc⟩
                refine ⟨⟨he, ?_⟩, hc⟩
                rintro rfl
                exact hir hc
              · rintro ⟨⟨he, _⟩, hc⟩
                exact ⟨he, hc⟩
          have hbounds_t : Bounds t (s.remove x).events := by
            intro e he hd'
            obtain ⟨he1, _⟩ := (hmemE' e).1 he
            obtain ⟨h1, h2⟩ := h.bounds e he1 hd'
            exact ⟨(hkeys_t _).2 h1, (hkeys_t _).2 h2⟩
          have hpairwise_t2 : t2.Pairwise keylt :=
            List.Pairwise.sublist (List.filter_sublist _) hpairwise_t
          -- survival of the boundary seams of every remaining event
          have hsurvive : ∀ e ∈ (s.remove x).events, e.hasDuration = true →
              isKey (removeSeams s.seams x) e.frame ∧
              isKey (removeSeams s.seams x) (e.frame + (e.duration : Int)) := by
            intro e he hd'
            have hedur : (0 : Int) < (e.duration : Int) := by
              have : e.duration ≠ 0 := by simpa [Event.hasDuration] using hd'
              omega
            obtain ⟨⟨lf, hlf⟩, ⟨lef, hlef⟩⟩ := hbounds_t e he hd'
            have hcovself : e.covers e.frame := ⟨le_refl _, by omega⟩
            have helf : e ∈ lf := (hcoh_t (e.frame, lf) hlf e).2 ⟨he, hcovself⟩
            have hlfne : lf.isEmpty = false := by
              cases lf
              · cases helf
              · rfl
            -- the start seam is never redundant
            have hstartred : e.frame ∉ red := by
              intro hmem
              obtain ⟨a, b, hzip, hbfst, _, _, hlists⟩ := mem_redundantKeys.1 hmem
              obtain ⟨hamem, hbmem, hab, _⟩ := zip_adjacent hpairwise_t hzip
              have hb' : (e.frame, b.2) ∈ t := by
                rw [← hbfst]
                simpa [Prod.mk.eta] using hbmem
              have hbeq : b.2 = lf := keys_unique hpairwise_t hb' hlf
              have hea : e ∉ a.2 := by
                intro hin
                obtain ⟨_, hca⟩ := (hcoh_t a hamem e).1 hin
                have : e.frame ≤ a.1 := hca.1
                omega
              exact hea (by rw [← hlists, hbeq]; exact helf)
            -- the end seam is never redundant
            have hendred : e.frame + (e.duration : Int) ∉ red := by
              intro hmem
              obtain ⟨a, b, hzip, hbfst, _, _, hlists⟩ := mem_redundantKeys.1 hmem
              obtain ⟨hamem, hbmem, hab, hadj⟩ := zip_adjacent hpairwise_t hzip
              have hfa : e.frame ≤ a.1 := by
                have := hadj (e.frame, lf) hlf
                simp only [not_and] at this
                by_contra hlt
                push_neg at hlt
                exact this hlt (by omega)
              have hea : e ∈ a.2 := (hcoh_t a hamem e).2 ⟨he, ⟨hfa, by omega⟩⟩
              have heb : e ∉ b.2 := by
                intro hin
                obtain ⟨_, hcb⟩ := (hcoh_t b hbmem e).1 hin
                rw [hbfst] at hcb
                exact absurd hcb.2 (lt_irrefl _)
              exact heb (by rw [hlists]; exact hea)
            have hstart2 : (e.frame, lf) ∈ t2 :=
              List.mem_filter.2 ⟨hlf, by simpa using hstartred⟩
            have hend2 : (e.frame + (e.duration : Int), lef) ∈ t2 :=
              List.mem_filter.2 ⟨hlef, by simpa using hendred⟩
            have hstartf : (e.frame, lf) ∈ removeSeams s.seams x := by
              rw [hremoveSeams_eq]
              exact mem_dropWhile_of_not hstart2 hlfne
            have hendf : (e.frame + (e.duration : Int), lef) ∈ removeSeams s.seams x := by
              rw [hremoveSeams_eq]
              exact mem_dropWhile_of_lt hpairwise_t2 hstart2 hend2 (by omega) hlfne
            exact ⟨⟨lf, hstartf⟩, ⟨lef, hendf⟩⟩
          have hsub_t : ∀ kv ∈ removeSeams s.seams x, kv ∈ t := by
            intro kv hkv
            rw [hremoveSeams_eq] at hkv
            exact (List.filter_sublist _).mem ((List.dropWhile_sublist _).mem hkv)
          refine ⟨hsorted', ?_, ?_, ?_, ?_⟩
          · rw [hseams, hremoveSeams_eq]
            exact List.Pairwise.sublist (List.dropWhile_sublist _) hpairwise_t2
          · intro kv hkv e
            rw [hseams] at hkv
            exact hcoh_t kv (hsub_t kv hkv) e
          · intro e he hd'
            rw [hseams]
            exact hsurvive e he hd'
          · intro kv hkv
            rw [hseams, hremoveSeams_eq] at hkv
            have := head_dropWhile_not hkv
            intro hnil
            rw [hnil] at this
            cases this
        · -- seams unchanged
          have hseams : (s.remove x).seams = s.seams := by
            rw [remove_found_seams hsuf, if_neg hcond]
          have hmem0 : ∀ e : Event, e ≠ x →
              (e ∈ (s.remove x).events ↔ e ∈ s.events) := by
            intro e hne
            rw [hevents]
            constructor
            · intro he
              rw [hleq]
              rcases List.mem_append.1 he with he | he
              · exact List.mem_append.2 (Or.inl he)
              · exact List.mem_append.2 (Or.inr (List.mem_cons_of_mem _ he))
            · intro he
              rw [hleq] at he
              rcases List.mem_append.1 he with he | he
              · exact List.mem_append.2 (Or.inl he)
              · rcases List.mem_cons.1 he with rfl | he
                · exact absurd rfl hne
                · exact List.mem_append.2 (Or.inr he)
          refine ⟨hsorted', ?_, ?_, ?_, ?_⟩
          · rw [hseams]; exact h.sortedSeams
          · intro kv hkv e
            rw [hseams] at hkv
            have old := h.coh kv hkv e
            constructor
            · intro hel
              obtain ⟨he, hc⟩ := old.1 hel
              by_cases hep : e = x
              · subst hep
                have hdx : e.hasDuration = true := covers_hasDuration hc
                have hux : headNe rest e = false := by
                  rcases not_and_or.1 hcond with hnd | hnu
                  · exact absurd hdx hnd
                  · simpa using hnu
                have hin : e ∈ rest := headNe_false_mem hux
                refine ⟨?_, hc⟩
                rw [hevents]
                exact List.mem_append.2 (Or.inr hin)
              · exact ⟨(hmem0 e hep).2 he, hc⟩
            · rintro ⟨he', hc⟩
              exact old.2 ⟨hsub.mem he', hc⟩
          · intro e he hd'
            rw [hseams]
            exact h.bounds e (hsub.mem he) hd'
          · intro kv hkv
            rw [hseams] at hkv
            exact h.front kv hkv

/-! ### Reachable states -/

/-- One mutation of an `EventSeries`. -/
inductive SeriesOp where
  | add (e : Event)
  | remove (e : Event)
deriving DecidableEq, Repr

def applyOp (s : EventSeries) : SeriesOp → EventSeries
  | .add e => s.add e
  | .remove e => s.remove e

/-- The series obtained from an empty `EventSeries` by a sequence of
`add` and `remove` calls. -/
def applySeq (ops : List SeriesOp) : EventSeries :=
  ops.foldl applyOp empty

theorem inv_foldl : ∀ (ops : List SeriesOp) (s : EventSeries), Inv s →
    Inv (ops.foldl applyOp s) := by
  intro ops
  induction ops with
  | nil => intro s hs; exact hs
  | cons o t ih =>
      intro s hs
      refine ih (applyOp s o) ?_
      cases o with
      | add e => exact add_inv hs e
      | remove e => exact remove_inv hs e

theorem inv_applySeq (ops : List SeriesOp) : Inv (applySeq ops) :=
  inv_foldl ops empty inv_empty

/-! ### Membership in `getEventsCovering` -/

theorem mem_setInsert {l : List Event} {x e : Event} :
    e ∈ setInsert l x ↔ e ∈ l ∨ e = x := by
  unfold setInsert
  split
  · rename_i hx
    constructor
    · exact Or.inl
    · rintro (h | rfl)
      · exact h
      · exact hx
  · rw [mem_insert_iff]
    tauto

theorem mem_foldl_setInsert {e : Event} :
    ∀ {l acc : List Event}, e ∈ l.foldl setInsert acc ↔ e ∈ acc ∨ e ∈ l := by
  intro l
  induction l with
  | nil => intro acc; simp
  | cons a t ih =>
      intro acc
      rw [List.foldl_cons, ih, mem_setInsert]
      simp only [List.mem_cons]
      tauto

theorem at_or_below_pred_mono {q : Int} :
    ∀ a b : Int × List Event,
      (fun kv : Int × List Event => decide (kv.1 ≤ q)) a = false →
      keylt a b → (fun kv : Int × List Event => decide (kv.1 ≤ q)) b = false := by
  intro a b ha hab
  simp only [decide_eq_false_iff_not, not_le] at ha ⊢
  exact lt_trans ha hab

/-- Membership of a durationful event in `getEventsCovering` reduces to
membership in the seam list at the greatest key at or below the query. -/
theorem mem_getEventsCovering_durationful {s : EventSeries} {E : Event}
    (hdur : E.hasDuration = true) (q : Int) :
    E ∈ s.getEventsCovering q ↔
      (E ∈ s.events ∧ ∃ kv, seamAtOrBelow s.seams q = some kv ∧ E ∈ kv.2) := by
  unfold getEventsCovering
  rw [List.mem_append]
  constructor
  · intro hmem
    rcases hmem with hmem | hmem
    · exfalso
      have h2 := (List.mem_filter.1 hmem).2
      rw [hdur] at h2
      simp at h2
    · obtain ⟨a, ha, hf⟩ := List.mem_flatMap.1 hmem
      obtain ⟨hE, hEa⟩ := List.mem_filter.1 hf
      have hEa' : E = a := by simpa using hEa
      subst hEa'
      rw [mem_foldl_setInsert] at ha
      rcases ha with ha | ha
      · cases ha
      · cases hB : seamAtOrBelow s.seams q with
        | none =>
            rw [hB] at ha
            cases ha
        | some kv =>
            rw [hB] at ha
            exact ⟨hE, kv, rfl, ha⟩
  · rintro ⟨hE, kv, hB, hkv⟩
    refine Or.inr (List.mem_flatMap.2 ⟨E, ?_, ?_⟩)
    · rw [mem_foldl_setInsert, hB]
      exact Or.inr hkv
    · exact List.mem_filter.2 ⟨hE, by simp⟩

/-- C1, positive part: a present durationful event is returned by
`getEventsCovering` at every frame of its half-open interval. -/
theorem covering_contains {s : EventSeries} (hinv : Inv s) {E : Event}
    (hmem : E ∈ s.events) (hdur : E.hasDuration = true) {q : Int}
    (h1 : E.frame ≤ q) (h2 : q < E.frame + (E.duration : Int)) :
    E ∈ s.getEventsCovering q := by
  obtain ⟨⟨lf, hlf⟩, _⟩ := hinv.bounds E hmem hdur
  rw [mem_getEventsCovering_durationful hdur]
  refine ⟨hmem, ?_⟩
  cases hB : seamAtOrBelow s.seams q with
  | none =>
      exfalso
      have := takeWhile_getLast_none at_or_below_pred_mono hinv.sortedSeams hB
        (E.frame, lf) hlf
      simp only [decide_eq_false_iff_not, not_le] at this
      omega
  | some kv =>
      obtain ⟨hkvmem, hkvle'⟩ := takeWhile_getLast_mem hB
      have hkvle : kv.1 ≤ q := by simpa using hkvle'
      have hge : E.frame ≤ kv.1 :=
        takeWhile_getLast_max at_or_below_pred_mono hinv.sortedSeams hB
          (E.frame, lf) hlf (by simpa using h1)
      refine ⟨kv, rfl, ?_⟩
      exact (hinv.coh kv hkvmem E).2 ⟨hmem, ⟨hge, by omega⟩⟩

/-- C1, negative part: at the end frame (start + duration) the event is
no longer returned. -/
theorem covering_excludes_end {s : EventSeries} (hinv : Inv s) {E : Event}
    (hmem : E ∈ s.events) (hdur : E.hasDuration = true) :
    E ∉ s.getEventsCovering (E.frame + (E.duration : Int)) := by
  obtain ⟨_, ⟨lef, hlef⟩⟩ := hinv.bounds E hmem hdur
  rw [mem_getEventsCovering_durationful hdur]
  rintro ⟨_, kv, hB, hkv⟩
  obtain ⟨hkvmem, hkvle'⟩ := takeWhile_getLast_mem hB
  have hkvle : kv.1 ≤ E.frame + (E.duration : Int) := by simpa using hkvle'
  have hge : E.frame + (E.duration : Int) ≤ kv.1 :=
    takeWhile_getLast_max at_or_below_pred_mono hinv.sortedSeams hB
      (E.frame + (E.duration : Int), lef) hlef (by simp)
  have hc := ((hinv.coh kv hkvmem E).1 hkv).2
  have : kv.1 = E.frame + (E.duration : Int) := le_antisymm hkvle hge
  rw [this] at hc
  exact absurd hc.2 (lt_irrefl _)

/-! ### Multiset bookkeeping for the round trip -/

theorem add_events_multiset (s : EventSeries) (p : Event) :
    ((s.add p).events : Multiset Event) = p ::ₘ (s.events : Multiset Event) := by
  rw [Multiset.cons_coe, Multiset.coe_eq_coe, add_events_def]
  exact perm_insert s.events p

theorem remove_events_multiset {s : EventSeries} (hinv : Inv s) (p : Event) :
    ((s.remove p).events : Multiset Event) = (s.events : Multiset Event).erase p := by
  cases hsuf : lowerSuf s.events p with
  | nil =>
      rw [remove_eq_nil hsuf]
      have hnp : p ∉ s.events := (not_mem_of_head_ne hinv.sortedEvents).1 hsuf
      rw [Multiset.erase_of_not_mem (by simpa using hnp)]
  | cons x rest =>
      by_cases hx : x = p
      · subst hx
        rw [remove_found_events hsuf]
        have hleq : s.events = lowerPre s.events x ++ x :: rest := lowerSuf_eq_cons hsuf
        have hperm : s.events.Perm (x :: (lowerPre s.events x ++ rest)) := by
          conv_lhs => rw [hleq]
          exact List.perm_middle
        have hco : (s.events : Multiset Event) =
            x ::ₘ ((lowerPre s.events x ++ rest : List Event) : Multiset Event) := by
          rw [Multiset.cons_coe, Multiset.coe_eq_coe]
          exact hperm
        rw [hco, Multiset.erase_cons_head]
      · rw [remove_eq_ne hsuf hx]
        have hnp : p ∉ s.events := (not_mem_of_head_ne hinv.sortedEvents).2 x rest hsuf hx
        rw [Multiset.erase_of_not_mem (by simpa using hnp)]

theorem foldl_add_multiset :
    ∀ (l : List Event) (s : EventSeries),
      (((l.foldl (fun s e => s.add e) s).events : Multiset Event)) =
        (s.events : Multiset Event) + (l : Multiset Event) := by
  intro l
  induction l with
  | nil => intro s; simp
  | cons a t ih =>
      intro s
      rw [List.foldl_cons, ih (s.add a), add_events_multiset]
      rw [← Multiset.cons_coe, Multiset.cons_add, Multiset.add_cons]

theorem inv_foldl_add : ∀ (l : List Event) (s : EventSeries), Inv s →
    Inv (l.foldl (fun s e => s.add e) s) := by
  intro l
  induction l with
  | nil => intro s hs; exact hs
  | cons a t ih =>
      intro s hs
      exact ih (s.add a) (add_inv hs a)

theorem seams_nil_of_events_nil {s : EventSeries} (hinv : Inv s)
    (h : s.events = []) : s.seams = [] := by
  cases hs : s.seams with
  | nil => rfl
  | cons kv t =>
      exfalso
      have hfront := hinv.front kv (by rw [hs]; rfl)
      cases hl : kv.2 with
      | nil => exact hfront hl
      | cons e l2 =>
          have : e ∈ kv.2 := by rw [hl]; exact List.mem_cons_self _ _
          have := ((hinv.coh kv (by rw [hs]; exact List.mem_cons_self _ _) e).1 this).1
          rw [h] at this
          cases this

theorem foldl_remove_all :
    ∀ (r : List Event) (s : EventSeries), Inv s →
      (s.events : Multiset Event) = (r : Multiset Event) →
      (r.foldl (fun s e => s.remove e) s).events = [] ∧
      (r.foldl (fun s e => s.remove e) s).seams = [] := by
  intro r
  induction r with
  | nil =>
      intro s hinv hmul
      have hev : s.events = [] := by
        have : (s.events : Multiset Event) = 0 := by simpa using hmul
        simpa using this
      exact ⟨hev, seams_nil_of_events_nil hinv hev⟩
  | cons a t ih =>
      intro s hinv hmul
      rw [List.foldl_cons]
      refine ih (s.remove a) (remove_inv hinv a) ?_
      rw [remove_events_multiset hinv a, hmul, ← Multiset.cons_coe,
        Multiset.erase_cons_head]

end EventSeries

open EventSeries in
/-- **C1.** For every durationful event `E` (duration `d > 0`) present
in an `EventSeries` obtained by any sequence of `add` and `remove`
operations, and every frame `p` with `frame ≤ p < frame + d`,
`getEventsCovering p` contains `E`; for `p = frame + d` it does not. -/
theorem claim_C1_eventSeries_seam_coherence
    (ops : List SeriesOp) (E : Event)
    (hmem : E ∈ (applySeq ops).events) (hdur : 0 < E.duration) :
    (∀ p : Int, E.frame ≤ p → p < E.frame + (E.duration : Int) →
      E ∈ (applySeq ops).getEventsCovering p) ∧
    E ∉ (applySeq ops).getEventsCovering (E.frame + (E.duration : Int)) := by
  have hinv := inv_applySeq ops
  have hd : E.hasDuration = true := by
    simp only [Event.hasDuration, ne_eq, decide_eq_true_eq]
    omega
  exact ⟨fun p h1 h2 => covering_contains hinv hmem hd h1 h2,
    covering_excludes_end hinv hmem hd⟩

open EventSeries in
theorem claim_C1_eventSeries_seam_coherence_witness :
    ((⟨100, 50, 0, 0, ""⟩ : Event) ∈
      (applySeq [SeriesOp.add ⟨100, 50, 0, 0, ""⟩,
                 SeriesOp.add ⟨120, 40, 0, 0, ""⟩]).getEventsCovering 130) ∧
    ((⟨100, 50, 0, 0, ""⟩ : Event) ∉
      (applySeq [SeriesOp.add ⟨100, 50, 0, 0, ""⟩,
                 SeriesOp.add ⟨120, 40, 0, 0, ""⟩]).getEventsCovering 150) := by
  have h := claim_C1_eventSeries_seam_coherence
    [SeriesOp.add ⟨100, 50, 0, 0, ""⟩, SeriesOp.add ⟨120, 40, 0, 0, ""⟩]
    ⟨100, 50, 0, 0, ""⟩ (by decide) (by decide)
  exact ⟨h.1 130 (by decide) (by decide), h.2⟩

open EventSeries in
/-- **C2.** Starting from an empty `EventSeries`, adding the events of
any list `l` in order and then removing them in reverse order leaves
the series with no stored events and an empty seam map.  (A list is
exactly a multiset `M` enumerated in a permutation `π`.) -/
theorem claim_C2_eventSeries_roundtrip (l : List Event) :
    ((l.reverse).foldl (fun s e => s.remove e)
      (l.foldl (fun s e => s.add e) EventSeries.empty)).events = [] ∧
    ((l.reverse).foldl (fun s e => s.remove e)
      (l.foldl (fun s e => s.add e) EventSeries.empty)).seams = [] := by
  refine foldl_remove_all l.reverse _
    (inv_foldl_add l EventSeries.empty inv_empty) ?_
  rw [foldl_add_multiset l EventSeries.empty]
  simp [EventSeries.empty]

/-! ## AlignmentModel

`AlignmentModel` (src/data/model/AlignmentModel.cpp): a mapping between
two timelines derived from a raw `SparseTimeValueModel` path.  A raw
path point is `(frame, value)`; the derived paths hold
`(frame, lrintf(value * alignedSampleRate))` (forward) and the swapped
pair (reverse), kept in a `std::set<PathPoint>` ordered by
`(frame, mapframe)`. -/

namespace Alignment

/-- Generic keyed-list lemmas (shared by the path machinery). -/
theorem keyed_pairwise_le_getLast {α : Type _} {key : α → Int} {l : List α}
    (hl : l.Pairwise (fun a b => key a < key b)) {q : α}
    (hq : l.getLast? = some q) : ∀ a ∈ l, key a ≤ key q := by
  obtain ⟨ys, rfl⟩ := List.getLast?_eq_some_iff.1 hq
  rw [List.pairwise_append] at hl
  intro a ha
  rcases List.mem_append.1 ha with ha | ha
  · exact le_of_lt (hl.2.2 a ha q (by simp))
  · simp only [List.mem_singleton] at ha; simp [ha]

theorem keyed_takeWhile_getLast_mem {α : Type _} {p : α → Bool} {l : List α}
    {q : α} (hq : (l.takeWhile p).getLast? = some q) :
    q ∈ l ∧ p q = true := by
  obtain ⟨ys, hys⟩ := List.getLast?_eq_some_iff.1 hq
  have hmem : q ∈ l.takeWhile p := by rw [hys]; simp
  exact ⟨(List.takeWhile_sublist p).mem hmem, List.mem_takeWhile_imp hmem⟩

theorem keyed_takeWhile_getLast_max {α : Type _} {key : α → Int} {p : α → Bool}
    {l : List α}
    (hp : ∀ a b : α, p a = false → key a < key b → p b = false)
    (hl : l.Pairwise (fun a b => key a < key b))
    {q : α} (hq : (l.takeWhile p).getLast? = some q) :
    ∀ x ∈ l, p x = true → key x ≤ key q := by
  intro x hx hpx
  exact keyed_pairwise_le_getLast
    (List.Pairwise.sublist (List.takeWhile_sublist p) hl) hq x
    (EventSeries.mem_takeWhile_of_mem hp hl x hx hpx)

theorem keyed_takeWhile_getLast_none {α : Type _} {key : α → Int} {p : α → Bool}
    {l : List α}
    (hp : ∀ a b : α, p a = false → key a < key b → p b = false)
    (hl : l.Pairwise (fun a b => key a < key b))
    (hq : (l.takeWhile p).getLast? = none) :
    ∀ x ∈ l, p x = false := by
  intro x hx
  by_contra hc
  have hpx : p x = true := by simpa using hc
  have := EventSeries.mem_takeWhile_of_mem hp hl x hx hpx
  rw [List.getLast?_eq_none_iff.1 hq] at this
  cases this

theorem keyed_unique {α : Type _} {key : α → Int} :
    ∀ {l : List α}, l.Pairwise (fun a b => key a < key b) →
      ∀ {a b : α}, a ∈ l → b ∈ l → key a = key b → a = b := by
  intro l
  induction l with
  | nil => intro _ a b ha; cases ha
  | cons x t ih =>
      intro hl a b ha hb hk
      rw [List.pairwise_cons] at hl
      rcases List.mem_cons.1 ha with ha1 | ha2
      · subst ha1
        rcases List.mem_cons.1 hb with hb1 | hb2
        · subst hb1; rfl
        · exact absurd (hl.1 b hb2) (by omega)
      · rcases List.mem_cons.1 hb with hb1 | hb2
        · subst hb1
          exact absurd (hl.1 a ha2) (by omega)
        · exact ih hl.2 ha2 hb2 hk

/-- The `PathPoint::Comparator` (`frame`, then `mapframe`). -/
def pathLt (a b : Int × Int) : Bool :=
  decide (a.1 < b.1) || (decide (a.1 = b.1) && decide (a.2 < b.2))

/-- Propositional form of `pathLt`. -/
def PathLt (a b : Int × Int) : Prop :=
  a.1 < b.1 ∨ (a.1 = b.1 ∧ a.2 < b.2)

theorem pathLt_iff {a b : Int × Int} : pathLt a b = true ↔ PathLt a b := by
  simp [pathLt, PathLt]

theorem pathLt_trichotomy (a b : Int × Int) :
    a = b ∨ PathLt a b ∨ PathLt b a := by
  unfold PathLt
  by_cases h1 : a.1 = b.1
  · by_cases h2 : a.2 = b.2
    · exact Or.inl (Prod.ext h1 h2)
    · rcases lt_or_gt_of_ne h2 with h | h
      · exact Or.inr (Or.inl (Or.inr ⟨h1, h⟩))
      · exact Or.inr (Or.inr (Or.inr ⟨h1.symm, h⟩))
  · rcases lt_or_gt_of_ne h1 with h | h
    · exact Or.inr (Or.inl (Or.inl h))
    · exact Or.inr (Or.inr (Or.inl h))

theorem pathLt_trans {a b c : Int × Int} (h1 : PathLt a b) (h2 : PathLt b c) :
    PathLt a c := by
  unfold PathLt at *
  omega

/-- `std::set<PathPoint>::insert`: insert keeping the set sorted and
duplicate-free. -/
def pathInsert (l : List (Int × Int)) (x : Int × Int) : List (Int × Int) :=
  if x ∈ l then l
  else l.takeWhile (fun r => pathLt r x) ++ x :: l.dropWhile (fun r => pathLt r x)

theorem mem_pathInsert {l : List (Int × Int)} {x r : Int × Int} :
    r ∈ pathInsert l x ↔ r ∈ l ∨ r = x := by
  unfold pathInsert
  split
  · rename_i hx
    constructor
    · exact Or.inl
    · rintro (h | rfl)
      · exact h
      · exact hx
  · constructor
    · intro h
      rcases List.mem_append.1 h with h | h
      · exact Or.inl ((List.takeWhile_sublist _).mem h)
      · rcases List.mem_cons.1 h with rfl | h
        · exact Or.inr rfl
        · exact Or.inl ((List.dropWhile_sublist _).mem h)
    · intro h
      rcases h with h | rfl
      · conv at h => rw [← List.takeWhile_append_dropWhile
          (p := fun r => pathLt r x) (l := l)]
        rcases List.mem_append.1 h with h | h
        · exact List.mem_append.2 (Or.inl h)
        · exact List.mem_append.2 (Or.inr (List.mem_cons_of_mem _ h))
      · exact List.mem_append.2 (Or.inr (List.mem_cons_self _ _))

theorem pathInsert_sorted {l : List (Int × Int)} (hl : l.Pairwise PathLt)
    (x : Int × Int) : (pathInsert l x).Pairwise PathLt := by
  unfold pathInsert
  split
  · exact hl
  · rename_i hx
    have hdrop : ∀ r ∈ l.dropWhile (fun r => pathLt r x), PathLt x r := by
      intro r hr
      have hrl : r ∈ l := (List.dropWhile_sublist _).mem hr
      have h1 : (fun r => pathLt r x) r = false :=
        EventSeries.mem_dropWhile_not (r := PathLt)
          (p := fun r => pathLt r x)
          (by intro a b ha hab
              rw [Bool.eq_false_iff] at ha ⊢
              intro hb
              exact ha (pathLt_iff.2 (pathLt_trans hab (pathLt_iff.1 hb)))) hl r hr
      rcases pathLt_trichotomy x r with heq | hlt | hgt
      · exact absurd (by rw [heq]; exact hrl) hx
      · exact hlt
      · exact absurd (pathLt_iff.2 hgt) (by simpa using h1)
    rw [List.pairwise_append]
    refine ⟨List.Pairwise.sublist (List.takeWhile_sublist _) hl, ?_, ?_⟩
    · rw [List.pairwise_cons]
      exact ⟨hdrop, List.Pairwise.sublist (List.dropWhile_sublist _) hl⟩
    · intro a ha b hb
      have h1 : PathLt a x := pathLt_iff.1 (by simpa using List.mem_takeWhile_imp ha)
      rcases List.mem_cons.1 hb with rfl | hb
      · exact h1
      · exact pathLt_trans h1 (hdrop b hb)

/-- Generic fold used by `constructPath`/`constructReversePath`. -/
theorem pathFold_sorted {β : Type _} (f : β → Int × Int) :
    ∀ (raw : List β) (acc : List (Int × Int)), acc.Pairwise PathLt →
      (raw.foldl (fun acc pt => pathInsert acc (f pt)) acc).Pairwise PathLt := by
  intro raw
  induction raw with
  | nil => intro acc h; exact h
  | cons a t ih =>
      intro acc h
      exact ih (pathInsert acc (f a)) (pathInsert_sorted h (f a))

theorem mem_pathFold {β : Type _} (f : β → Int × Int) :
    ∀ (raw : List β) (acc : List (Int × Int)) (r : Int × Int),
      r ∈ raw.foldl (fun acc pt => pathInsert acc (f pt)) acc ↔
        r ∈ acc ∨ ∃ pt ∈ raw, r = f pt := by
  intro raw
  induction raw with
  | nil => intro acc r; simp
  | cons a t ih =>
      intro acc r
      rw [List.foldl_cons, ih, mem_pathInsert]
      simp only [List.mem_cons]
      constructor
      · rintro ((h | rfl) | ⟨pt, hpt, rfl⟩)
        · exact Or.inl h
        · exact Or.inr ⟨a, Or.inl rfl, rfl⟩
        · exact Or.inr ⟨pt, Or.inr hpt, rfl⟩
      · rintro (h | ⟨pt, (rfl | hpt), rfl⟩)
        · exact Or.inl (Or.inl h)
        · exact Or.inl (Or.inr rfl)
        · exact Or.inr ⟨pt, hpt, rfl⟩

/-- `AlignmentModel::constructPath` (AlignmentModel.cpp lines 196-224):
for every raw point `(frame, value)` add the path point
`(frame, lrintf(value * alignedRate))`. -/
def constructPath (raw : List (Int × ℚ)) (alignedRate : ℚ) : List (Int × Int) :=
  raw.foldl (fun acc pt => pathInsert acc (pt.1, rnd (pt.2 * alignedRate))) []

/-- `AlignmentModel::constructReversePath` (lines 226-254): the swapped
pairs. -/
def constructReversePath (raw : List (Int × ℚ)) (alignedRate : ℚ) : List (Int × Int) :=
  raw.foldl (fun acc pt => pathInsert acc (rnd (pt.2 * alignedRate), pt.1)) []

/-- The `lower_bound(PathPoint(frame))` index (the comparator sees the
probe as `(frame, frame)`). -/
def alignLB (points : List (Int × Int)) (frame : Int) : Nat :=
  points.findIdx (fun r => !pathLt r (frame, frame))

/-- The `while (i != begin && i->frame > frame) --i;` loop. -/
def alignStepBack (points : List (Int × Int)) (frame : Int) : Nat → Nat
  | 0 => 0
  | i + 1 =>
      if (points.getD (i + 1) (0, 0)).1 > frame then alignStepBack points frame i
      else i + 1

/-- `AlignmentModel::align` (AlignmentModel.cpp lines 256-303).  The
float interpolation is exact rational arithmetic with `lrintf` as
`rnd`.  `resultFrame` is a `size_t`: it starts from the nonnegative
`foundMapFrame` (the `foundMapFrame < 0` case returned 0 already) and
`resultFrame += lrintf(...)` wraps modulo `2^64`, so the interpolated
sum is reduced `% 2^64`. -/
def align (points : List (Int × Int)) (frame : Int) : Int :=
  if points.isEmpty then frame
  else
    let i0 := alignLB points frame
    let i1 := if i0 = points.length then points.length - 1 else i0
    let i := alignStepBack points frame i1
    let found := points.getD i (0, 0)
    let following := if i + 1 < points.length then points.getD (i + 1) (0, 0) else found
    if found.2 < 0 then 0
    else if following.1 ≠ found.1 ∧ frame > found.1 then
      (found.2 + rnd (((following.2 - found.2 : Int) : ℚ) *
        (((frame - found.1 : Int) : ℚ) / ((following.1 - found.1 : Int) : ℚ)))) % 2 ^ 64
    else found.2

/-- `AlignmentModel` path state after construction: the raw path (if
one was supplied) and the aligned model's sample rate. -/
structure AlignmentModel where
  rawPath : Option (List (Int × ℚ))
  alignedRate : ℚ

/-- `AlignmentModel::toReference` (lines 127-136): identity when no raw
path was supplied (then no derived path is ever built); otherwise
`align` over the constructed forward path. -/
def AlignmentModel.toReference (m : AlignmentModel) (frame : Int) : Int :=
  match m.rawPath with
  | none => frame
  | some raw => align (constructPath raw m.alignedRate) frame

/-- `AlignmentModel::fromReference` (lines 138-147). -/
def AlignmentModel.fromReference (m : AlignmentModel) (frame : Int) : Int :=
  match m.rawPath with
  | none => frame
  | some raw => align (constructReversePath raw m.alignedRate) frame

/-- The mapping algorithm as worded in claim C3: find the greatest path
entry `(q0, m0)` with `q0 ≤ q`; let `(q1, m1)` be the next entry (the
entry itself when there is none, so that a query past the last vertex
returns the last vertex's mapped value); if `q = q0` or `q1 = q0`
return `m0`, else `m0 + round((m1-m0)*(q-q0)/(q1-q0))`; a negative
mapped value `m0` is clamped to 0 ("negative mapped values are clamped
to 0", where "its mapped value" is the found entry's `m0`).  `none`
when no entry has first coordinate `≤ q` (the claim is silent there). -/
def alignClaim (points : List (Int × Int)) (q : Int) : Option Int :=
  match (points.takeWhile (fun r => decide (r.1 ≤ q))).getLast? with
  | none => none
  | some q0m0 =>
      let q1m1 := points.getD (points.takeWhile (fun r => decide (r.1 ≤ q))).length q0m0
      some (if q0m0.2 < 0 then 0
            else if q = q0m0.1 ∨ q1m1.1 = q0m0.1 then q0m0.2
            else q0m0.2 + rnd (((q1m1.2 - q0m0.2 : Int) : ℚ) *
              (((q - q0m0.1 : Int) : ℚ) / ((q1m1.1 - q0m0.1 : Int) : ℚ))))

/-- The claim's algorithm with the source's `size_t` accumulation: the
interpolated sum is reduced `% 2^64` exactly as `align`'s
`resultFrame += lrintf(...)` does.  `alignClaim` and `alignClaimW`
agree whenever the mapped values lie in `[0, 2^63)` (the nonnegative
`long` range), see `alignClaim_eq_alignClaimW`. -/
def alignClaimW (points : List (Int × Int)) (q : Int) : Option Int :=
  match (points.takeWhile (fun r => decide (r.1 ≤ q))).getLast? with
  | none => none
  | some q0m0 =>
      let q1m1 := points.getD (points.takeWhile (fun r => decide (r.1 ≤ q))).length q0m0
      some (if q0m0.2 < 0 then 0
            else if q = q0m0.1 ∨ q1m1.1 = q0m0.1 then q0m0.2
            else (q0m0.2 + rnd (((q1m1.2 - q0m0.2 : Int) : ℚ) *
              (((q - q0m0.1 : Int) : ℚ) / ((q1m1.1 - q0m0.1 : Int) : ℚ)))) % 2 ^ 64)

theorem alignStepBack_stop {points : List (Int × Int)} {q : Int} {i : Nat}
    (h : (points.getD i (0, 0)).1 ≤ q) : alignStepBack points q i = i := by
  cases i with
  | zero => rfl
  | succ k =>
      show (if (points.getD (k + 1) (0, 0)).1 > q
            then alignStepBack points q k else k + 1) = k + 1
      rw [if_neg (not_lt.2 h)]

theorem alignStepBack_step {points : List (Int × Int)} {q : Int} {k : Nat}
    (h : q < (points.getD (k + 1) (0, 0)).1) :
    alignStepBack points q (k + 1) = alignStepBack points q k := by
  show (if (points.getD (k + 1) (0, 0)).1 > q
        then alignStepBack points q k else k + 1) = alignStepBack points q k
  rw [if_pos h]

theorem getD_append_left {l1 l2 : List (Int × Int)} {n : Nat}
    (h : n < l1.length) (d : Int × Int) :
    (l1 ++ l2).getD n d = l1.getD n d := by
  simp [List.getD_eq_getElem?_getD, List.getElem?_append, h]

theorem getD_append_right {l1 l2 : List (Int × Int)} {n : Nat}
    (h : l1.length ≤ n) (d : Int × Int) :
    (l1 ++ l2).getD n d = l2.getD (n - l1.length) d := by
  simp [List.getD_eq_getElem?_getD, List.getElem?_append_right h]

theorem getD_getLast {l : List (Int × Int)} {x : Int × Int}
    (h : l.getLast? = some x) (d : Int × Int) :
    l.getD (l.length - 1) d = x := by
  rw [List.getD_eq_getElem?_getD, ← List.getLast?_eq_getElem?, h]
  rfl

theorem pathLt_probe_lt {r : Int × Int} {q : Int} (h : r.1 < q) :
    pathLt r (q, q) = true := by
  have h2 : ¬(r.1 = q) := by omega
  simp [pathLt, h, h2]

theorem pathLt_probe_gt {r : Int × Int} {q : Int} (h : q < r.1) :
    pathLt r (q, q) = false := by
  have h1 : ¬(r.1 < q) := by omega
  have h2 : ¬(r.1 = q) := by omega
  simp [pathLt, h1, h2]

theorem le_probe_pred_mono {q : Int} :
    ∀ a b : Int × Int, (fun r : Int × Int => decide (r.1 ≤ q)) a = false →
      a.1 < b.1 → (fun r : Int × Int => decide (r.1 ≤ q)) b = false := by
  intro a b ha hab
  simp only [decide_eq_false_iff_not, not_le] at ha ⊢
  omega

/-- On a path with strictly increasing frames, `align` computes exactly
the claim's algorithm whenever some entry's frame is `≤ q`. -/
theorem align_eq_alignClaimW {points : List (Int × Int)} {q : Int}
    (hs : points.Pairwise (fun a b : Int × Int => a.1 < b.1))
    (hex : ∃ r ∈ points, r.1 ≤ q) :
    alignClaimW points q = some (align points q) := by
  obtain ⟨r0, hr0, hr0le⟩ := hex
  have hr0pre : r0 ∈ points.takeWhile (fun r => decide (r.1 ≤ q)) :=
    EventSeries.mem_takeWhile_of_mem le_probe_pred_mono hs r0 hr0 (by simpa using hr0le)
  cases hlast : (points.takeWhile (fun r => decide (r.1 ≤ q))).getLast? with
  | none =>
      exfalso
      rw [List.getLast?_eq_none_iff.1 hlast] at hr0pre
      cases hr0pre
  | some q0m0 =>
  obtain ⟨pre', hpre'⟩ := List.getLast?_eq_some_iff.1 hlast
  have hsplit : points = points.takeWhile (fun r => decide (r.1 ≤ q)) ++
      points.dropWhile (fun r => decide (r.1 ≤ q)) :=
    (List.takeWhile_append_dropWhile _ _).symm
  have hq0le : q0m0.1 ≤ q := by
    simpa using (keyed_takeWhile_getLast_mem hlast).2
  have hsuf_gt : ∀ r ∈ points.dropWhile (fun r => decide (r.1 ≤ q)), q < r.1 := by
    intro r hr
    have := EventSeries.mem_dropWhile_not (r := fun a b : Int × Int => a.1 < b.1)
      (p := fun r : Int × Int => decide (r.1 ≤ q)) le_probe_pred_mono hs r hr
    simpa using this
  have hpre'_lt : ∀ r ∈ pre', r.1 < q0m0.1 := by
    have hp : (points.takeWhile (fun r => decide (r.1 ≤ q))).Pairwise
        (fun a b : Int × Int => a.1 < b.1) :=
      List.Pairwise.sublist (List.takeWhile_sublist _) hs
    rw [hpre', List.pairwise_append] at hp
    intro r hr
    exact hp.2.2 r hr q0m0 (by simp)
  -- lengths
  have hnpos : 0 < (points.takeWhile (fun r => decide (r.1 ≤ q))).length := by
    simp [hpre']
  have hLeq : points.length =
      (points.takeWhile (fun r => decide (r.1 ≤ q))).length +
      (points.dropWhile (fun r => decide (r.1 ≤ q))).length := by
    rw [← List.length_append, List.takeWhile_append_dropWhile]
  -- the findIdx over the prefix is past its end
  have hfindpre' : List.findIdx (fun r => !pathLt r (q, q)) pre' = pre'.length :=
    List.findIdx_eq_length.2 (fun x hx => by
      have hx' := pathLt_probe_lt (lt_of_lt_of_le (hpre'_lt x hx) hq0le)
      simp [hx'])
  have hpoints_eq : points = pre' ++ (q0m0 :: points.dropWhile (fun r => decide (r.1 ≤ q))) := by
    conv_lhs => rw [hsplit, hpre']
    simp
  have hlb : alignLB points q =
      (if (!pathLt q0m0 (q, q)) = true then pre'.length
       else List.findIdx (fun r => !pathLt r (q, q))
         (points.dropWhile (fun r => decide (r.1 ≤ q))) + 1 + pre'.length) := by
    unfold alignLB
    conv_lhs => rw [hpoints_eq]
    rw [List.findIdx_append, hfindpre', if_neg (lt_irrefl _), List.findIdx_cons]
    cases hpq : (!pathLt q0m0 (q, q)) with
    | true => simp [hpq]
    | false => simp [hpq]
  have hn1 : (points.takeWhile (fun r => decide (r.1 ≤ q))).length = pre'.length + 1 := by
    rw [hpre']; simp
  -- the found entry is the last of the prefix in every case
  have hgetfound : points.getD (pre'.length) (0, 0) = q0m0 := by
    conv_lhs => rw [hsplit]
    rw [getD_append_left (by omega) _]
    have := getD_getLast hlast (0, 0)
    rw [hn1] at this
    simpa using this
  have hstep : alignStepBack points q
      (if alignLB points q = points.length then points.length - 1 else alignLB points q) =
      pre'.length := by
    rw [hlb]
    cases hpq : (!pathLt q0m0 (q, q)) with
    | true =>
        rw [if_pos rfl]
        have hne : pre'.length ≠ points.length := by omega
        rw [if_neg hne]
        exact alignStepBack_stop (by rw [hgetfound]; exact hq0le)
    | false =>
        cases hsuf : points.dropWhile (fun r => decide (r.1 ≤ q)) with
        | nil =>
            have hLn : points.length = pre'.length + 1 := by
              rw [hLeq, hn1, hsuf]; simp
            simp only [Bool.false_eq_true, if_false, List.findIdx_nil]
            rw [if_pos (by omega), hLn]
            simp only [Nat.add_sub_cancel]
            exact alignStepBack_stop (by rw [hgetfound]; exact hq0le)
        | cons shd stl =>
            have hshd : q < shd.1 := hsuf_gt shd (by rw [hsuf]; exact List.mem_cons_self _ _)
            have hLge : pre'.length + 1 < points.length := by
              rw [hLeq, hn1, hsuf]; simp
            have hfsuf : List.findIdx (fun r => !pathLt r (q, q)) (shd :: stl) = 0 := by
              rw [List.findIdx_cons]
              have hb : (!pathLt shd (q, q)) = true := by
                rw [pathLt_probe_gt hshd]; rfl
              simp [hb]
            simp only [Bool.false_eq_true, if_false]
            rw [hfsuf]
            have hget2 : points = pre' ++ q0m0 :: shd :: stl := by
              rw [hpoints_eq, hsuf]
            have hgetnext : points.getD (pre'.length + 1) (0, 0) = shd := by
              conv_lhs => rw [hget2]
              rw [getD_append_right (by omega) _]
              rw [show pre'.length + 1 - pre'.length = 1 by omega]
              rfl
            rw [if_neg (by omega)]
            rw [show 0 + 1 + pre'.length = pre'.length + 1 by omega]
            rw [alignStepBack_step (by rw [hgetnext]; exact hshd)]
            exact alignStepBack_stop (by rw [hgetfound]; exact hq0le)
  -- the next entry agrees with the claim's next entry
  have hnext : (if pre'.length + 1 < points.length
      then points.getD (pre'.length + 1) (0, 0) else q0m0) =
      points.getD (points.takeWhile (fun r => decide (r.1 ≤ q))).length q0m0 := by
    rw [hn1]
    by_cases hcase : pre'.length + 1 < points.length
    · rw [if_pos hcase, List.getD_eq_getElem?_getD, List.getD_eq_getElem?_getD,
        List.getElem?_eq_getElem hcase]
      rfl
    · rw [if_neg hcase, List.getD_eq_getElem?_getD, List.getElem?_eq_none (by omega)]
      rfl
  -- assemble both sides
  have hne_nil : points.isEmpty = false := by
    cases hp : points with
    | nil => rw [hp] at hr0; cases hr0
    | cons a t => rfl
  unfold align alignClaimW
  rw [hlast, hne_nil]
  simp only [Bool.false_eq_true, if_false]
  rw [hstep, hgetfound, hnext]
  set q1m1 := points.getD (points.takeWhile (fun r => decide (r.1 ≤ q))).length q0m0 with hq1
  by_cases hm0 : q0m0.2 < 0
  · rw [if_pos hm0, if_pos hm0]
  · rw [if_neg hm0, if_neg hm0]
    by_cases hcnd : q = q0m0.1 ∨ q1m1.1 = q0m0.1
    · rw [if_pos hcnd, if_neg (by
        rcases hcnd with h | h
        · intro hh; omega
        · intro hh; exact hh.1 h)]
    · push_neg at hcnd
      rw [if_neg (by
        intro hh
        rcases hh with hh | hh
        · exact hcnd.1 hh
        · exact hcnd.2 hh)]
      rw [if_pos ⟨hcnd.2, by omega⟩]

/-- Between two path vertices with mapped values in the nonnegative
`long` range, the interpolated `resultFrame` stays within `[0, 2^64)`:
the `size_t` accumulation does not wrap. -/
theorem interp_in_range {m0 m1 q0 q q1 : Int}
    (h0 : 0 ≤ m0) (h0u : m0 < 2 ^ 63) (h1 : 0 ≤ m1) (h1u : m1 < 2 ^ 63)
    (hq0 : q0 < q) (hq1 : q < q1) :
    0 ≤ m0 + rnd (((m1 - m0 : Int) : ℚ) *
      (((q - q0 : Int) : ℚ) / ((q1 - q0 : Int) : ℚ))) ∧
    m0 + rnd (((m1 - m0 : Int) : ℚ) *
      (((q - q0 : Int) : ℚ) / ((q1 - q0 : Int) : ℚ))) < 2 ^ 64 := by
  have ht0 : 0 < (((q - q0 : Int) : ℚ) / ((q1 - q0 : Int) : ℚ)) := by
    apply div_pos
    · exact_mod_cast (by omega : (0 : Int) < q - q0)
    · exact_mod_cast (by omega : (0 : Int) < q1 - q0)
  have ht1 : (((q - q0 : Int) : ℚ) / ((q1 - q0 : Int) : ℚ)) ≤ 1 := by
    rw [div_le_one (by exact_mod_cast (by omega : (0 : Int) < q1 - q0))]
    exact_mod_cast (by omega : q - q0 ≤ q1 - q0)
  have hfl := floor_le_rnd (((m1 - m0 : Int) : ℚ) *
    (((q - q0 : Int) : ℚ) / ((q1 - q0 : Int) : ℚ)))
  have hfu := rnd_le_floor_add_one (((m1 - m0 : Int) : ℚ) *
    (((q - q0 : Int) : ℚ) / ((q1 - q0 : Int) : ℚ)))
  by_cases hd : 0 ≤ m1 - m0
  · have hd' : (0 : ℚ) ≤ ((m1 - m0 : Int) : ℚ) := by exact_mod_cast hd
    have hX0 : (0 : ℚ) ≤ ((m1 - m0 : Int) : ℚ) *
        (((q - q0 : Int) : ℚ) / ((q1 - q0 : Int) : ℚ)) :=
      mul_nonneg hd' (le_of_lt ht0)
    have hXu : ((m1 - m0 : Int) : ℚ) *
        (((q - q0 : Int) : ℚ) / ((q1 - q0 : Int) : ℚ)) ≤ ((m1 - m0 : Int) : ℚ) :=
      mul_le_of_le_one_right hd' ht1
    have hfl0 : (0 : Int) ≤ ⌊((m1 - m0 : Int) : ℚ) *
        (((q - q0 : Int) : ℚ) / ((q1 - q0 : Int) : ℚ))⌋ :=
      Int.le_floor.2 (by exact_mod_cast hX0)
    have hflu : ⌊((m1 - m0 : Int) : ℚ) *
        (((q - q0 : Int) : ℚ) / ((q1 - q0 : Int) : ℚ))⌋ ≤ m1 - m0 := by
      have := Int.floor_le_floor hXu
      rw [Int.floor_intCast] at this
      exact this
    constructor <;> omega
  · push_neg at hd
    have hd' : ((m1 - m0 : Int) : ℚ) < 0 := by exact_mod_cast hd
    have hXl : ((m1 - m0 : Int) : ℚ) ≤ ((m1 - m0 : Int) : ℚ) *
        (((q - q0 : Int) : ℚ) / ((q1 - q0 : Int) : ℚ)) := by
      have hmul := mul_le_mul_of_nonpos_left ht1 (le_of_lt hd')
      rw [mul_one] at hmul
      exact hmul
    have hXu : ((m1 - m0 : Int) : ℚ) *
        (((q - q0 : Int) : ℚ) / ((q1 - q0 : Int) : ℚ)) ≤ 0 :=
      le_of_lt (mul_neg_of_neg_of_pos hd' ht0)
    have hfll : m1 - m0 ≤ ⌊((m1 - m0 : Int) : ℚ) *
        (((q - q0 : Int) : ℚ) / ((q1 - q0 : Int) : ℚ))⌋ := by
      have := Int.floor_le_floor hXl
      rw [Int.floor_intCast] at this
      exact this
    have hflu : ⌊((m1 - m0 : Int) : ℚ) *
        (((q - q0 : Int) : ℚ) / ((q1 - q0 : Int) : ℚ))⌋ ≤ 0 :=
      Int.floor_nonpos hXu
    constructor <;> omega

/-- On a sorted path with mapped values in the nonnegative `long`
range, the claim's unbounded algorithm and its `size_t`-accumulating
form agree: the interpolation between the found entry and the next one
cannot wrap. -/
theorem alignClaim_eq_alignClaimW {points : List (Int × Int)} {q : Int}
    (hs : points.Pairwise (fun a b : Int × Int => a.1 < b.1))
    (hm : ∀ p ∈ points, 0 ≤ p.2 ∧ p.2 < 2 ^ 63) :
    alignClaim points q = alignClaimW points q := by
  cases hlast : (points.takeWhile (fun r => decide (r.1 ≤ q))).getLast? with
  | none =>
      unfold alignClaim alignClaimW
      rw [hlast]
  | some q0m0 =>
      have hq0 := keyed_takeWhile_getLast_mem hlast
      have hq0le : q0m0.1 ≤ q := by simpa using hq0.2
      have hsplit : points = points.takeWhile (fun r => decide (r.1 ≤ q)) ++
          points.dropWhile (fun r => decide (r.1 ≤ q)) :=
        (List.takeWhile_append_dropWhile _ _).symm
      have hsuf_gt : ∀ r ∈ points.dropWhile (fun r => decide (r.1 ≤ q)), q < r.1 := by
        intro r hr
        have := EventSeries.mem_dropWhile_not (r := fun a b : Int × Int => a.1 < b.1)
          (p := fun r : Int × Int => decide (r.1 ≤ q)) le_probe_pred_mono hs r hr
        simpa using this
      have hq1cases :
          points.getD (points.takeWhile (fun r => decide (r.1 ≤ q))).length q0m0 = q0m0 ∨
          (points.getD (points.takeWhile (fun r => decide (r.1 ≤ q))).length q0m0 ∈ points ∧
           q < (points.getD (points.takeWhile (fun r => decide (r.1 ≤ q))).length q0m0).1) := by
        cases hsuf2 : points.dropWhile (fun r => decide (r.1 ≤ q)) with
        | nil =>
            left
            rw [List.getD_eq_getElem?_getD, List.getElem?_eq_none ?_]
            · rfl
            · conv_lhs => rw [hsplit]
              rw [List.length_append, hsuf2]
              simp
        | cons shd stl =>
            right
            have hget : points.getD
                (points.takeWhile (fun r => decide (r.1 ≤ q))).length q0m0 = shd := by
              set n := (points.takeWhile (fun r => decide (r.1 ≤ q))).length with hn
              conv_lhs => rw [hsplit]
              rw [getD_append_right (le_of_eq hn.symm) _, hn, Nat.sub_self, hsuf2]
              rfl
            rw [hget]
            constructor
            · have hmem : shd ∈ points.dropWhile (fun r => decide (r.1 ≤ q)) := by
                rw [hsuf2]
                exact List.mem_cons_self _ _
              exact (List.dropWhile_sublist _).mem hmem
            · exact hsuf_gt shd (by rw [hsuf2]; exact List.mem_cons_self _ _)
      unfold alignClaim alignClaimW
      rw [hlast]
      simp only []
      congr 1
      by_cases hm0 : q0m0.2 < 0
      · rw [if_pos hm0, if_pos hm0]
      · rw [if_neg hm0, if_neg hm0]
        by_cases hcnd : q = q0m0.1 ∨
            (points.getD (points.takeWhile (fun r => decide (r.1 ≤ q))).length q0m0).1 =
              q0m0.1
        · rw [if_pos hcnd, if_pos hcnd]
        · rw [if_neg hcnd, if_neg hcnd]
          push_neg at hcnd
          have hq0lt : q0m0.1 < q := lt_of_le_of_ne hq0le (Ne.symm hcnd.1)
          rcases hq1cases with heq | ⟨hq1mem, hq1gt⟩
          · exact absurd (congrArg Prod.fst heq) hcnd.2
          · obtain ⟨hb0, hb0u⟩ := hm q0m0 hq0.1
            obtain ⟨hb1, hb1u⟩ := hm _ hq1mem
            obtain ⟨hr0, hru⟩ := interp_in_range hb0 hb0u hb1 hb1u hq0lt hq1gt
            exact (Int.emod_eq_of_lt hr0 hru).symm

/-- Pairwise-distinct keys make the key injective on members. -/
theorem pairwise_key_inj {α : Type _} {key : α → Int} :
    ∀ {l : List α}, l.Pairwise (fun a b => key a ≠ key b) →
      ∀ {a b : α}, a ∈ l → b ∈ l → key a = key b → a = b := by
  intro l
  induction l with
  | nil => intro _ a b ha; cases ha
  | cons x t ih =>
      intro hl a b ha hb hk
      rw [List.pairwise_cons] at hl
      rcases List.mem_cons.1 ha with ha1 | ha2
      · subst ha1
        rcases List.mem_cons.1 hb with hb1 | hb2
        · subst hb1; rfl
        · exact absurd hk (hl.1 b hb2)
      · rcases List.mem_cons.1 hb with hb1 | hb2
        · subst hb1
          exact absurd hk.symm (hl.1 a ha2)
        · exact ih hl.2 ha2 hb2 hk

/-- Membership in the forward path built by `constructPath`. -/
theorem mem_constructPath {raw : List (Int × ℚ)} {rate : ℚ} {r : Int × Int} :
    r ∈ constructPath raw rate ↔ ∃ pt ∈ raw, r = (pt.1, rnd (pt.2 * rate)) := by
  unfold constructPath
  rw [mem_pathFold]
  simp

/-- Membership in the reverse path built by `constructReversePath`. -/
theorem mem_constructReversePath {raw : List (Int × ℚ)} {rate : ℚ} {r : Int × Int} :
    r ∈ constructReversePath raw rate ↔ ∃ pt ∈ raw, r = (rnd (pt.2 * rate), pt.1) := by
  unfold constructReversePath
  rw [mem_pathFold]
  simp

/-- When the raw frames are pairwise distinct, the forward path's frames
are strictly increasing. -/
theorem constructPath_sorted_frames {raw : List (Int × ℚ)} {rate : ℚ}
    (hfr : raw.Pairwise (fun x y => x.1 ≠ y.1)) :
    (constructPath raw rate).Pairwise (fun a b : Int × Int => a.1 < b.1) := by
  have hp : (constructPath raw rate).Pairwise PathLt :=
    pathFold_sorted _ raw [] (by simp)
  refine List.Pairwise.imp_of_mem ?_ hp
  intro a b ha hb hab
  rcases mem_constructPath.1 ha with ⟨pa, hpa, rfl⟩
  rcases mem_constructPath.1 hb with ⟨pb, hpb, rfl⟩
  rcases hab with h | ⟨h1, h2⟩
  · exact h
  · exfalso
    have hpab : pa = pb :=
      @pairwise_key_inj _ (fun x : Int × ℚ => x.1) _ hfr _ _ hpa hpb h1
    subst hpab
    exact lt_irrefl _ h2

/-- When the rounded mapped values are pairwise distinct, the reverse
path's frames are strictly increasing. -/
theorem constructReversePath_sorted_frames {raw : List (Int × ℚ)} {rate : ℚ}
    (hval : raw.Pairwise (fun x y => rnd (x.2 * rate) ≠ rnd (y.2 * rate))) :
    (constructReversePath raw rate).Pairwise (fun a b : Int × Int => a.1 < b.1) := by
  have hp : (constructReversePath raw rate).Pairwise PathLt :=
    pathFold_sorted _ raw [] (by simp)
  refine List.Pairwise.imp_of_mem ?_ hp
  intro a b ha hb hab
  rcases mem_constructReversePath.1 ha with ⟨pa, hpa, rfl⟩
  rcases mem_constructReversePath.1 hb with ⟨pb, hpb, rfl⟩
  rcases hab with h | ⟨h1, h2⟩
  · exact h
  · exfalso
    have hpab : pa = pb :=
      @pairwise_key_inj _ (fun x : Int × ℚ => rnd (x.2 * rate)) _ hval _ _ hpa hpb h1
    subst hpab
    exact lt_irrefl _ h2

/-- The forward path is empty exactly when the raw path is. -/
theorem constructPath_eq_nil_iff {raw : List (Int × ℚ)} {rate : ℚ} :
    constructPath raw rate = [] ↔ raw = [] := by
  constructor
  · intro h
    cases raw with
    | nil => rfl
    | cons a t =>
        exfalso
        have hm : (a.1, rnd (a.2 * rate)) ∈ constructPath (a :: t) rate :=
          mem_constructPath.2 ⟨a, List.mem_cons_self _ _, rfl⟩
        rw [h] at hm
        cases hm
  · rintro rfl; rfl

/-- On a strictly-increasing-frame path, `align` maps a vertex's frame
to its mapped value as long as that value is not negative (the clamp
path). -/
theorem align_at_vertex {points : List (Int × Int)}
    (hs : points.Pairwise (fun a b : Int × Int => a.1 < b.1))
    {st : Int × Int} (hmem : st ∈ points) (hnn : 0 ≤ st.2) :
    align points st.1 = st.2 := by
  have h := align_eq_alignClaimW hs ⟨st, hmem, le_refl _⟩
  have hst_tw : st ∈ points.takeWhile (fun r => decide (r.1 ≤ st.1)) :=
    EventSeries.mem_takeWhile_of_mem le_probe_pred_mono hs st hmem (by simp)
  cases hlast : (points.takeWhile (fun r => decide (r.1 ≤ st.1))).getLast? with
  | none =>
      rw [List.getLast?_eq_none_iff.1 hlast] at hst_tw
      cases hst_tw
  | some q0m0 =>
      have hq0 := keyed_takeWhile_getLast_mem hlast
      have hmax : st.1 ≤ q0m0.1 :=
        @keyed_takeWhile_getLast_max _ (fun r : Int × Int => r.1) _ _
          le_probe_pred_mono hs _ hlast st hmem (by simp)
      have hle : q0m0.1 ≤ st.1 := by simpa using hq0.2
      have heq : q0m0 = st :=
        @keyed_unique _ (fun r : Int × Int => r.1) _ hs _ _ hq0.1 hmem
          (show q0m0.1 = st.1 by omega)
      unfold alignClaimW at h
      rw [hlast] at h
      subst heq
      simp only [] at h
      rw [if_neg (not_lt.2 hnn)] at h
      rw [if_pos (Or.inl trivial)] at h
      exact (Option.some.injEq _ _ ▸ h).symm

/-! ### Completion state (`isReady` / `pathCompletionChanged`)

The constructor sets `m_pathBegun = false`, `m_pathComplete = false`;
`m_rawPath` is the raw `SparseTimeValueModel` path or null.  Here the
raw model is represented by its current completion value: `rawPath =
some c` for a live raw model whose latest reported completion is `c`
(the raw model's own `isReady` is `completion == 100`), `none` for a
null (never supplied or deleted) raw model.  Each `completionChanged`
delivery carries the raw completion at that moment
(`m_rawPath->isReady(&completion)` inside `pathCompletionChanged`). -/

/-- `m_pathBegun` / `m_pathComplete` / `m_rawPath` of `AlignmentModel`. -/
structure ReadyState where
  pathBegun : Bool
  pathComplete : Bool
  rawPath : Option Nat
deriving DecidableEq

/-- The state right after the constructor (lines 29-47). -/
def readyInit (r : Option Nat) : ReadyState :=
  ⟨false, false, r⟩

/-- Deliveries observed by the model: `completionChanged` from the raw
path (with the raw completion at that moment) and `modelChanged`
(`pathChanged()`, lines 149-157). -/
inductive AOp where
  | rawCompletion (c : Nat)
  | pathChanged
deriving DecidableEq

/-- One delivery: `pathCompletionChanged` (lines 167-194) returns early
on a null raw path, else sets `m_pathBegun` and, when not yet complete,
recomputes `m_pathComplete = (completion == 100)`; `pathChanged`
(lines 149-157) deletes the raw path once complete. -/
def readyStep (s : ReadyState) (op : AOp) : ReadyState :=
  match op with
  | .rawCompletion c =>
      match s.rawPath with
      | none => s
      | some _ =>
          { pathBegun := true,
            pathComplete := s.pathComplete || decide (c = 100),
            rawPath := some c }
  | .pathChanged =>
      if s.pathComplete then { s with rawPath := none } else s

/-- The state after a sequence of deliveries. -/
def readyRun (ops : List AOp) (s : ReadyState) : ReadyState :=
  ops.foldl readyStep s

/-- `AlignmentModel::isReady` (lines 95-107), ignoring the out-param:
false before any delivery; true once complete or once the raw path is
gone; otherwise the raw model's own readiness (`completion == 100`). -/
def isReady (s : ReadyState) : Bool :=
  if !s.pathBegun then false
  else if s.pathComplete || s.rawPath.isNone then true
  else decide (s.rawPath.getD 0 = 100)

/-- Does the delivery come from the raw path? -/
def AOp.isRC : AOp → Bool
  | .rawCompletion _ => true
  | .pathChanged => false

/-- Is the delivery a raw completion report of exactly 100? -/
def AOp.isRC100 : AOp → Bool
  | .rawCompletion c => decide (c = 100)
  | .pathChanged => false

theorem any_isRC_of_any_isRC100 {ops : List AOp}
    (h : ops.any AOp.isRC100 = true) : ops.any AOp.isRC = true := by
  rw [List.any_eq_true] at h ⊢
  obtain ⟨op, hmem, hop⟩ := h
  refine ⟨op, hmem, ?_⟩
  cases op with
  | rawCompletion c => rfl
  | pathChanged => cases hop

/-- The inductive invariant of the delivery loop for a model built with
a live raw path: `m_pathBegun` records whether any raw completion was
delivered, `m_pathComplete` whether a raw completion of 100 was, the
raw path survives until completion, and once a delivery has happened a
live raw value of 100 implies a 100 was delivered. -/
theorem readyRun_inv (c₀ : Nat) (ops : List AOp) :
    (readyRun ops (readyInit (some c₀))).pathBegun = ops.any AOp.isRC ∧
    (readyRun ops (readyInit (some c₀))).pathComplete = ops.any AOp.isRC100 ∧
    ((readyRun ops (readyInit (some c₀))).rawPath = none →
      ops.any AOp.isRC100 = true) ∧
    (∀ c, (readyRun ops (readyInit (some c₀))).rawPath = some c →
      ops.any AOp.isRC = true → c = 100 → ops.any AOp.isRC100 = true) := by
  induction ops using List.reverseRecOn with
  | nil =>
      refine ⟨rfl, rfl, ?_, ?_⟩
      · intro h; cases h
      · intro c _ hrc _
        exact absurd hrc (by simp)
  | append_singleton ops' op ih =>
      obtain ⟨ih1, ih2, ih3, ih4⟩ := ih
      have hrun : readyRun (ops' ++ [op]) (readyInit (some c₀)) =
          readyStep (readyRun ops' (readyInit (some c₀))) op := by
        unfold readyRun
        rw [List.foldl_append, List.foldl_cons, List.foldl_nil]
      have hany : ∀ f : AOp → Bool, (ops' ++ [op]).any f = (ops'.any f || f op) := by
        intro f; rw [List.any_append]; simp
      rw [hrun, hany, hany]
      cases op with
      | rawCompletion c =>
          cases hraw : (readyRun ops' (readyInit (some c₀))).rawPath with
          | none =>
              have h100 : ops'.any AOp.isRC100 = true := ih3 hraw
              have hrc : ops'.any AOp.isRC = true := any_isRC_of_any_isRC100 h100
              unfold readyStep
              rw [hraw]
              refine ⟨by rw [ih1, hrc]; rfl, by rw [ih2, h100]; rfl, ?_, ?_⟩
              · intro _; rw [h100]; rfl
              · intro c' _ _ _; rw [h100]; rfl
          | some c' =>
              unfold readyStep
              rw [hraw]
              refine ⟨?_, by rw [ih2]; rfl, ?_, ?_⟩
              · show true = (ops'.any AOp.isRC || AOp.isRC (AOp.rawCompletion c))
                have : AOp.isRC (AOp.rawCompletion c) = true := rfl
                rw [this, Bool.or_true]
              · intro h; cases h
              · intro c'' hc'' _ h100
                have hcc : c = c'' := by injection hc''
                subst hcc
                have hc100 : AOp.isRC100 (AOp.rawCompletion c) = true := by
                  simp [AOp.isRC100, h100]
                rw [hc100, Bool.or_true]
      | pathChanged =>
          unfold readyStep
          have hsimp : ∀ f : AOp → Bool, f AOp.pathChanged = false →
              (ops'.any f || f AOp.pathChanged) = ops'.any f := by
            intro f hf; rw [hf]; simp
          rw [hsimp AOp.isRC rfl, hsimp AOp.isRC100 rfl]
          by_cases hc : (readyRun ops' (readyInit (some c₀))).pathComplete = true
          · rw [if_pos hc]
            exact ⟨ih1, ih2, fun _ => by rw [← ih2]; exact hc,
              fun c hc' _ _ => by rw [← ih2]; exact hc⟩
          · rw [if_neg hc]
            exact ⟨ih1, ih2, ih3, ih4⟩

/-- A model built with a null raw path never changes state. -/
theorem readyRun_none (ops : List AOp) :
    readyRun ops (readyInit none) = readyInit none := by
  induction ops with
  | nil => rfl
  | cons op t ih =>
      have hstep : readyStep (readyInit none) op = readyInit none := by
        cases op with
        | rawCompletion c => rfl
        | pathChanged => rfl
      unfold readyRun at ih ⊢
      rw [List.foldl_cons, hstep]
      exact ih

theorem isRC100_mem_iff {ops : List AOp} :
    ops.any AOp.isRC100 = true ↔ AOp.rawCompletion 100 ∈ ops := by
  rw [List.any_eq_true]
  constructor
  · rintro ⟨op, hmem, hop⟩
    cases op with
    | rawCompletion c =>
        have : c = 100 := by simpa [AOp.isRC100] using hop
        subst this
        exact hmem
    | pathChanged => cases hop
  · intro hmem
    exact ⟨AOp.rawCompletion 100, hmem, by simp [AOp.isRC100]⟩

end Alignment

open Alignment in
/-- **C3 (corrected).** The claim's mapping algorithm (greatest path
entry `(q0, m0)` with `q0 ≤ q`; next entry `(q1, m1)`, the found entry
itself past the end; `m0` when `q = q0` or `q1 = q0`; otherwise
`m0 + round((m1-m0)(q-q0)/(q1-q0))`; negative `m0` clamped to 0)
describes `align` only on paths whose entry frames are strictly
increasing, whose mapped values lie in the nonnegative `long` range
`[0, 2^63)`, and for queries at or past the first entry's frame.  The
corrections: on a path with duplicate frames — which `constructPath`
can build, see the counterexample — the code's `lower_bound` /
step-back walk finds the *first* entry of the duplicate group while
the claim's "greatest entry with `q0 ≤ q`" is the last one, and the
two give different results; and the code accumulates the interpolated
result in a `size_t`, so a negative interpolated value wraps modulo
`2^64` rather than coming out negative as the claim's formula would —
the mapped-value bounds keep the interpolation inside `[0, 2^64)`. -/
theorem claim_C3_align_algorithm {points : List (Int × Int)} {q : Int}
    (hs : points.Pairwise (fun a b : Int × Int => a.1 < b.1))
    (hm : ∀ p ∈ points, 0 ≤ p.2 ∧ p.2 < 2 ^ 63)
    (hex : ∃ r ∈ points, r.1 ≤ q) :
    alignClaim points q = some (align points q) :=
  (alignClaim_eq_alignClaimW hs hm).trans (align_eq_alignClaimW hs hex)

open Alignment in
theorem claim_C3_align_algorithm_witness :
    alignClaim [((0 : Int), (0 : Int)), (10, 100)] 5 =
      some (align [((0 : Int), (0 : Int)), (10, 100)] 5) ∧
    align [((0 : Int), (0 : Int)), (10, 100)] 5 = 50 :=
  ⟨claim_C3_align_algorithm (by decide) (by decide) (by decide),
   by with_unfolding_all rfl⟩

open Alignment in
/-- Counterexample to C3 as stated: the path built from the raw points
`(5, 6), (5, 8)` (rate 1) has two entries with frame 5; at query 5 the
code returns the first duplicate's mapped value 6, while the claimed
"greatest entry with `q0 ≤ q`" rule returns the last one's value 8. -/
theorem claim_C3_align_counterexample :
    align (constructPath [((5 : Int), (6 : ℚ)), (5, 8)] 1) 5 = 6 ∧
    alignClaim (constructPath [((5 : Int), (6 : ℚ)), (5, 8)] 1) 5 = some 8 :=
  ⟨by with_unfolding_all rfl, by with_unfolding_all rfl⟩

set_option maxHeartbeats 1000000 in
open Alignment in
/-- **C4 (corrected).** Vertex round-trip for a model built from a raw
path: when the raw frames are pairwise distinct, the rounded mapped
values `lrintf(value · alignedRate)` are pairwise distinct, and frames
and rounded values are nonnegative, every raw point `(s, v)` satisfies
`toReference s = lrintf(v · rate)` and
`fromReference (lrintf(v · rate)) = s`.  The corrections: duplicate
frames or duplicate (or negative) mapped values break the round-trip —
see the counterexample, where two raw points share the mapped value. -/
theorem claim_C4_vertex_roundtrip (raw : List (Int × ℚ)) (rate : ℚ)
    (hfr : raw.Pairwise (fun x y => x.1 ≠ y.1))
    (hval : raw.Pairwise (fun x y => rnd (x.2 * rate) ≠ rnd (y.2 * rate)))
    (hnn : ∀ pt ∈ raw, 0 ≤ pt.1 ∧ 0 ≤ rnd (pt.2 * rate)) :
    ∀ pt ∈ raw,
      (AlignmentModel.mk (some raw) rate).toReference pt.1 = rnd (pt.2 * rate) ∧
      (AlignmentModel.mk (some raw) rate).fromReference (rnd (pt.2 * rate)) = pt.1 := by
  intro pt hpt
  constructor
  · show align (constructPath raw rate) pt.1 = rnd (pt.2 * rate)
    have hmem : (pt.1, rnd (pt.2 * rate)) ∈ constructPath raw rate :=
      mem_constructPath.2 ⟨pt, hpt, rfl⟩
    exact align_at_vertex (constructPath_sorted_frames hfr) hmem ((hnn pt hpt).2)
  · show align (constructReversePath raw rate) (rnd (pt.2 * rate)) = pt.1
    have hmem : (rnd (pt.2 * rate), pt.1) ∈ constructReversePath raw rate :=
      mem_constructReversePath.2 ⟨pt, hpt, rfl⟩
    exact align_at_vertex (constructReversePath_sorted_frames hval) hmem ((hnn pt hpt).1)

open Alignment in
theorem claim_C4_vertex_roundtrip_witness :
    (AlignmentModel.mk (some [((0 : Int), (0 : ℚ)), (10, 100)]) 1).toReference 10 =
      rnd ((100 : ℚ) * 1) ∧
    (AlignmentModel.mk (some [((0 : Int), (0 : ℚ)), (10, 100)]) 1).fromReference
      (rnd ((100 : ℚ) * 1)) = 10 :=
  claim_C4_vertex_roundtrip [((0 : Int), (0 : ℚ)), (10, 100)] 1
    (by with_unfolding_all decide) (by with_unfolding_all decide)
    (by with_unfolding_all decide) (10, 100) (by with_unfolding_all decide)

open Alignment in
/-- Counterexample to C4 as stated: the raw path `(0, 0), (1, 0)` (rate
1) maps both frames to 0, so the reverse path is `(0,0), (0,1)`; the
raw point `(1, 0)` has forward pair `(s, t) = (1, 0)`, but
`fromReference 0` finds the reverse entry `(0, 0)` and returns 0, not
`s = 1`. -/
theorem claim_C4_vertex_roundtrip_counterexample :
    (AlignmentModel.mk (some [((0 : Int), (0 : ℚ)), (1, 0)]) 1).fromReference
      (rnd ((0 : ℚ) * 1)) ≠ 1 := by
  with_unfolding_all decide

open Alignment in
/-- **C5 (corrected).** For a model constructed with a live raw path
(initial raw completion `c₀`), after any sequence of deliveries
`isReady` returns true exactly when a raw completion of 100 has been
delivered; for a model constructed with a null raw path `isReady`
always returns false.  The correction: the claim said a null raw path
("never supplied") makes `isReady` true, but with a null raw path
`pathCompletionChanged` never runs, `m_pathBegun` stays false and
`isReady` takes its early-exit false branch. -/
theorem claim_C5_isReady_characterisation (c₀ : Nat) (ops : List AOp) :
    (isReady (readyRun ops (readyInit (some c₀))) = true ↔
      AOp.rawCompletion 100 ∈ ops) ∧
    isReady (readyRun ops (readyInit none)) = false := by
  constructor
  · rw [← isRC100_mem_iff]
    obtain ⟨ih1, ih2, ih3, ih4⟩ := readyRun_inv c₀ ops
    constructor
    · intro h
      unfold isReady at h
      cases hbeg : (readyRun ops (readyInit (some c₀))).pathBegun with
      | false =>
          rw [hbeg] at h
          simp at h
      | true =>
          rw [hbeg] at h
          by_cases hc : (readyRun ops (readyInit (some c₀))).pathComplete = true
          · rw [← ih2]; exact hc
          · cases hraw : (readyRun ops (readyInit (some c₀))).rawPath with
            | none => exact ih3 hraw
            | some c =>
                refine ih4 c hraw (by rw [← ih1]; exact hbeg) ?_
                have hcf : (readyRun ops (readyInit (some c₀))).pathComplete = false :=
                  Bool.eq_false_iff.2 hc
                rw [hcf, hraw] at h
                simpa using h
    · intro hmem
      have hb : (readyRun ops (readyInit (some c₀))).pathBegun = true := by
        rw [ih1]; exact any_isRC_of_any_isRC100 hmem
      have hcomp : (readyRun ops (readyInit (some c₀))).pathComplete = true := by
        rw [ih2]; exact hmem
      unfold isReady
      rw [hb, hcomp]
      rfl
  · rw [readyRun_none]
    rfl

open Alignment in
/-- Counterexample to C5 as stated: a model constructed with a null raw
path ("no raw path model was ever supplied") reports `isReady = false`,
because with no raw path `pathCompletionChanged` never runs and
`m_pathBegun` stays false, while the claim requires true. -/
theorem claim_C5_isReady_counterexample :
    isReady (readyRun [] (readyInit none)) = false := rfl

/-! ## CodedAudioFileReader (normalisation)

`CodedAudioFileReader` (src/data/fileio/CodedAudioFileReader.cpp), in
`CacheInMemory` mode.  Float samples are modelled as exact rationals.
The constructor (lines 33-57) initialises `m_max = 0`, `m_gain = 1`,
and the in-memory cache empty. -/

namespace Coded

/-- The reader state used by `pushBufferNonResampling` and
`getInterleavedFrames`: `m_channelCount`, `m_normalised`, `m_data`
(the in-memory interleaved sample cache), `m_max` and `m_gain`. -/
structure Reader where
  channelCount : Nat
  normalised : Bool
  data : List ℚ
  max : ℚ
  gain : ℚ

/-- The state after the constructor. -/
def readerInit (ch : Nat) (normalised : Bool) : Reader :=
  ⟨ch, normalised, [], 0, 1⟩

/-- One iteration of the normalised scan loop (lines 363-369): on a new
maximum `m_max = v`, `m_gain = 1/m_max`. -/
def maxStep (mg : ℚ × ℚ) (x : ℚ) : ℚ × ℚ :=
  if |x| > mg.1 then (|x|, 1 / |x|) else mg

/-- `CodedAudioFileReader::pushBufferNonResampling` (lines 356-397),
`CacheInMemory` case: when normalised, scan the buffer updating
`m_max`/`m_gain` and append the samples unmodified; otherwise clip each
sample into [-1, 1] (the source's two clip loops compose to the single
conditional) and append. -/
def pushBufferNonResampling (r : Reader) (buffer : List ℚ) : Reader :=
  if r.normalised then
    let mg := buffer.foldl maxStep (r.max, r.gain)
    { r with max := mg.1, gain := mg.2, data := r.data ++ buffer }
  else
    { r with data := r.data ++
        buffer.map (fun x => if x > 1 then 1 else if x < -1 then -1 else x) }

/-- `CodedAudioFileReader::getInterleavedFrames` (lines 447-494),
`CacheInMemory` case: slice `[start*ch, start*ch + count*ch)` clipped
to the cache size, then apply `m_gain` to each sample when
normalised. -/
def getInterleavedFrames (r : Reader) (start count : Nat) : List ℚ :=
  if count = 0 then []
  else
    let ix0 := start * r.channelCount
    let ix1 := min (ix0 + count * r.channelCount) r.data.length
    let frames := (r.data.take ix1).drop ix0
    if r.normalised then frames.map (fun f => f * r.gain) else frames

/-- Reading the whole cache (any `count` covering it, from frame 0) in
normalised mode returns every stored sample scaled by `m_gain`. -/
theorem getInterleavedFrames_full {r : Reader} {count : Nat}
    (hn : r.normalised = true) (hc : 0 < count)
    (hlen : r.data.length ≤ count * r.channelCount) :
    getInterleavedFrames r 0 count = r.data.map (fun f => f * r.gain) := by
  unfold getInterleavedFrames
  rw [if_neg (by omega), hn]
  have hmin : min (0 * r.channelCount + count * r.channelCount) r.data.length =
      r.data.length := by omega
  simp only [eq_self_iff_true, if_true]
  rw [hmin, List.take_length, Nat.zero_mul, List.drop_zero]

/-- What the scan loop computes: the result bounds the initial maximum
and every sample, and either nothing exceeded the initial maximum (the
pair is unchanged) or the maximum is attained by a sample and the gain
is its reciprocal. -/
theorem maxScan_spec :
    ∀ (l : List ℚ) (m g : ℚ), 0 ≤ m →
      0 ≤ (l.foldl maxStep (m, g)).1 ∧
      m ≤ (l.foldl maxStep (m, g)).1 ∧
      (∀ x ∈ l, |x| ≤ (l.foldl maxStep (m, g)).1) ∧
      (l.foldl maxStep (m, g) = (m, g) ∨
        ((∃ x ∈ l, |x| = (l.foldl maxStep (m, g)).1) ∧
          (l.foldl maxStep (m, g)).2 = 1 / (l.foldl maxStep (m, g)).1)) := by
  intro l
  induction l with
  | nil =>
      intro m g hm
      exact ⟨hm, le_refl _, by simp, Or.inl rfl⟩
  | cons x t ih =>
      intro m g hm
      rw [List.foldl_cons]
      by_cases hx : |x| > m
      · have hstep : maxStep (m, g) x = (|x|, 1 / |x|) := by
          unfold maxStep
          rw [if_pos hx]
        rw [hstep]
        obtain ⟨h0, hle, hall, hlast⟩ := ih (|x|) (1 / |x|) (abs_nonneg x)
        refine ⟨h0, le_trans (le_of_lt hx) hle, ?_, ?_⟩
        · intro y hy
          rcases List.mem_cons.1 hy with rfl | hy
          · exact hle
          · exact hall y hy
        · rcases hlast with heq | ⟨⟨z, hz, hzeq⟩, hg⟩
          · right
            refine ⟨⟨x, List.mem_cons_self _ _, ?_⟩, ?_⟩
            · rw [heq]
            · rw [heq]
          · right
            exact ⟨⟨z, List.mem_cons_of_mem _ hz, hzeq⟩, hg⟩
      · have hstep : maxStep (m, g) x = (m, g) := by
          unfold maxStep
          rw [if_neg hx]
        rw [hstep]
        obtain ⟨h0, hle, hall, hlast⟩ := ih m g hm
        refine ⟨h0, hle, ?_, ?_⟩
        · intro y hy
          rcases List.mem_cons.1 hy with rfl | hy
          · exact le_trans (not_lt.1 hx) hle
          · exact hall y hy
        · rcases hlast with heq | ⟨⟨z, hz, hzeq⟩, hg⟩
          · exact Or.inl heq
          · right
            exact ⟨⟨z, List.mem_cons_of_mem _ hz, hzeq⟩, hg⟩

/-- Pushing a sequence of buffers in normalised mode appends all the
samples unmodified and runs the scan over the concatenation. -/
theorem push_fold_spec (bufs : List (List ℚ)) :
    ∀ r : Reader, r.normalised = true →
      (bufs.foldl pushBufferNonResampling r).normalised = true ∧
      (bufs.foldl pushBufferNonResampling r).channelCount = r.channelCount ∧
      (bufs.foldl pushBufferNonResampling r).data = r.data ++ bufs.flatten ∧
      ((bufs.foldl pushBufferNonResampling r).max,
       (bufs.foldl pushBufferNonResampling r).gain) =
        bufs.flatten.foldl maxStep (r.max, r.gain) := by
  induction bufs with
  | nil =>
      intro r h
      exact ⟨h, rfl, by simp, by simp⟩
  | cons b t ih =>
      intro r h
      rw [List.foldl_cons]
      have hpush : pushBufferNonResampling r b =
          { r with max := (b.foldl maxStep (r.max, r.gain)).1,
                   gain := (b.foldl maxStep (r.max, r.gain)).2,
                   data := r.data ++ b } := by
        unfold pushBufferNonResampling
        rw [h]
        rfl
      rw [hpush]
      obtain ⟨h1, h2, h3, h4⟩ := ih
        { r with max := (b.foldl maxStep (r.max, r.gain)).1,
                 gain := (b.foldl maxStep (r.max, r.gain)).2,
                 data := r.data ++ b } h
      refine ⟨h1, h2, ?_, ?_⟩
      · rw [h3]
        simp
      · rw [h4]
        rw [List.flatten_cons, List.foldl_append]

end Coded

open Coded in
/-- **C6.** With `normalise=true` the reader stores pushed samples
unmodified (the cache is exactly the concatenation of the pushed
buffers) and applies the gain at read time; consequently, whenever some
pushed sample is non-zero, the full read-back signal has maximum
absolute value exactly 1 (exact rationals model the "within one ulp"
float slack). -/
theorem claim_C6_normalised_readback (ch : Nat) (bufs : List (List ℚ)) (count : Nat)
    (hcount : bufs.flatten.length ≤ count * ch) (hcpos : 0 < count)
    (hnz : ∃ s ∈ bufs.flatten, s ≠ 0) :
    (bufs.foldl pushBufferNonResampling (readerInit ch true)).data = bufs.flatten ∧
    (∀ y ∈ getInterleavedFrames
        (bufs.foldl pushBufferNonResampling (readerInit ch true)) 0 count, |y| ≤ 1) ∧
    (∃ y ∈ getInterleavedFrames
        (bufs.foldl pushBufferNonResampling (readerInit ch true)) 0 count, |y| = 1) := by
  obtain ⟨h1, h2, h3, h4⟩ := push_fold_spec bufs (readerInit ch true) rfl
  have hdata : (bufs.foldl pushBufferNonResampling (readerInit ch true)).data =
      bufs.flatten := by
    rw [h3]
    rfl
  obtain ⟨hm0, hmle, hall, hlast⟩ := maxScan_spec bufs.flatten 0 1 (le_refl 0)
  obtain ⟨s, hs, hsne⟩ := hnz
  have hMpos : 0 < (bufs.flatten.foldl maxStep (0, 1)).1 :=
    lt_of_lt_of_le (abs_pos.2 hsne) (hall s hs)
  have hcase : (∃ x ∈ bufs.flatten, |x| = (bufs.flatten.foldl maxStep (0, 1)).1) ∧
      (bufs.flatten.foldl maxStep (0, 1)).2 =
        1 / (bufs.flatten.foldl maxStep (0, 1)).1 := by
    rcases hlast with heq | hgood
    · exfalso
      rw [heq] at hMpos
      exact lt_irrefl _ hMpos
    · exact hgood
  have hgain : (bufs.foldl pushBufferNonResampling (readerInit ch true)).gain =
      1 / (bufs.flatten.foldl maxStep (0, 1)).1 := by
    have := congrArg Prod.snd h4
    simpa using this.trans hcase.2
  have hlen2 : (bufs.foldl pushBufferNonResampling (readerInit ch true)).data.length ≤
      count * (bufs.foldl pushBufferNonResampling (readerInit ch true)).channelCount := by
    rw [hdata, h2]
    exact hcount
  have hframes := getInterleavedFrames_full h1 hcpos hlen2
  rw [hdata, hgain] at hframes
  refine ⟨hdata, ?_, ?_⟩
  · intro y hy
    rw [hframes] at hy
    obtain ⟨x, hx, rfl⟩ := List.mem_map.1 hy
    rw [abs_mul, abs_of_pos (one_div_pos.2 hMpos)]
    have hle2 : |x| * (1 / (bufs.flatten.foldl maxStep (0, 1)).1) ≤
        (bufs.flatten.foldl maxStep (0, 1)).1 *
          (1 / (bufs.flatten.foldl maxStep (0, 1)).1) :=
      mul_le_mul_of_nonneg_right (hall x hx) (le_of_lt (one_div_pos.2 hMpos))
    rw [mul_one_div_cancel (ne_of_gt hMpos)] at hle2
    exact hle2
  · obtain ⟨x, hx, hxeq⟩ := hcase.1
    refine ⟨x * (1 / (bufs.flatten.foldl maxStep (0, 1)).1), ?_, ?_⟩
    · rw [hframes]
      exact List.mem_map_of_mem _ hx
    · rw [abs_mul, abs_of_pos (one_div_pos.2 hMpos), hxeq]
      exact mul_one_div_cancel (ne_of_gt hMpos)

open Coded in
theorem claim_C6_normalised_readback_witness :
    (([[(1 : ℚ)/2, -2]].foldl pushBufferNonResampling (readerInit 1 true)).data =
      [[(1 : ℚ)/2, -2]].flatten) ∧
    (∀ y ∈ getInterleavedFrames
        ([[(1 : ℚ)/2, -2]].foldl pushBufferNonResampling (readerInit 1 true)) 0 2,
      |y| ≤ 1) ∧
    (∃ y ∈ getInterleavedFrames
        ([[(1 : ℚ)/2, -2]].foldl pushBufferNonResampling (readerInit 1 true)) 0 2,
      |y| = 1) :=
  claim_C6_normalised_readback 1 [[(1 : ℚ)/2, -2]] 2
    (by with_unfolding_all decide) (by decide) (by with_unfolding_all decide)

/-! ## CodedAudioFileReader (resampling length)

The resampling path of `pushBuffer` (lines 339-354, 399-445) and the
final flush from `finishDecodeCache` (lines 300-337).  The `Resampler`
class lives in `base/`, which is not part of the repository's staged
sources. -/

namespace Resamp

/-- Modelled from the spec: the resampler is an ideal rate converter —
its cumulative output after consuming `n` input frames at ratio `r` is
`⌊n·r⌋`, so one `resampleInterleaved` call on `sz` frames with `cumIn`
frames already consumed produces `⌊(cumIn+sz)·r⌋ − ⌊cumIn·r⌋` output
frames. -/
def resampleOut (r : ℚ) (cumIn sz : Int) : Int :=
  ⌊((cumIn + sz : Int) : ℚ) * r⌋ - ⌊(cumIn : ℚ) * r⌋

/-- `m_fileFrameCount` (source frames pushed), `m_frameCount` (output
frames stored) and the resampler's consumed-frame count. -/
structure RState where
  fileFrameCount : Int
  frameCount : Int
  cumIn : Int

/-- Counts at construction. -/
def rsInit : RState :=
  ⟨0, 0, 0⟩

/-- A non-final `pushBuffer` of `sz` frames on the resampling path
(lines 339-354 and 399-415): `m_fileFrameCount += sz`; when `sz > 0`
the chunk is resampled and the produced frames stored
(`pushBufferNonResampling` adds them to `m_frameCount`). -/
def pushChunk (r : ℚ) (s : RState) (sz : Nat) : RState :=
  if 0 < sz then
    { fileFrameCount := s.fileFrameCount + sz,
      frameCount := s.frameCount + resampleOut r s.cumIn sz,
      cumIn := s.cumIn + sz }
  else
    { s with fileFrameCount := s.fileFrameCount + sz }

/-- The final `pushBuffer` issued by `finishDecodeCache` (lines
300-337) with the `lsz` leftover frames: after resampling the chunk,
the pad block (lines 417-443) feeds `padFrames` zero frames and clips
the produced count so the total never exceeds
`sv_frame_t(double(m_fileFrameCount) * ratio)` (C-cast truncation of a
nonnegative value, i.e. the floor). -/
def finishPush (r : ℚ) (s : RState) (lsz : Nat) : RState :=
  let n : Int := s.fileFrameCount + lsz
  let fc1 : Int := s.frameCount +
    (if 0 < lsz then resampleOut r s.cumIn lsz else 0)
  let cum1 : Int := s.cumIn + lsz
  let padFrames : Int :=
    if (fc1 : ℚ) / r < (n : ℚ) then n - ⌊(fc1 : ℚ) / r⌋ + 1 else 1
  let out0 : Int := resampleOut r cum1 padFrames
  let out1 : Int :=
    if fc1 + out0 > ⌊(n : ℚ) * r⌋ then ⌊(n : ℚ) * r⌋ - fc1 else out0
  { fileFrameCount := n, frameCount := fc1 + out1, cumIn := cum1 + padFrames }

theorem resampleOut_nonneg {r : ℚ} (hr : 0 ≤ r) {cumIn sz : Int}
    (hsz : 0 ≤ sz) : 0 ≤ resampleOut r cumIn sz := by
  unfold resampleOut
  have hle : (cumIn : ℚ) * r ≤ ((cumIn + sz : Int) : ℚ) * r := by
    apply mul_le_mul_of_nonneg_right _ hr
    have hsz' : (0 : ℚ) ≤ (sz : ℚ) := by exact_mod_cast hsz
    push_cast
    linarith
  have := Int.floor_le_floor hle
  omega

/-- After any sequence of non-final chunks the resampler has consumed
exactly the pushed source frames and the store holds `⌊consumed·r⌋`
output frames. -/
theorem pushChunk_inv (r : ℚ) (chunks : List Nat) :
    ∀ s : RState, s.cumIn = s.fileFrameCount →
      s.frameCount = ⌊(s.cumIn : ℚ) * r⌋ →
      (chunks.foldl (pushChunk r) s).cumIn =
        (chunks.foldl (pushChunk r) s).fileFrameCount ∧
      (chunks.foldl (pushChunk r) s).frameCount =
        ⌊((chunks.foldl (pushChunk r) s).cumIn : ℚ) * r⌋ := by
  induction chunks with
  | nil => intro s h1 h2; exact ⟨h1, h2⟩
  | cons sz t ih =>
      intro s h1 h2
      rw [List.foldl_cons]
      by_cases hsz : 0 < sz
      · have hstep : pushChunk r s sz =
            { fileFrameCount := s.fileFrameCount + sz,
              frameCount := s.frameCount + resampleOut r s.cumIn sz,
              cumIn := s.cumIn + sz } := by
          unfold pushChunk
          rw [if_pos hsz]
        rw [hstep]
        refine ih _ ?_ ?_
        · show s.cumIn + (sz : Int) = s.fileFrameCount + (sz : Int)
          omega
        · show s.frameCount + resampleOut r s.cumIn sz =
            ⌊((s.cumIn + (sz : Int) : Int) : ℚ) * r⌋
          unfold resampleOut
          omega
      · have hstep : pushChunk r s sz =
            { s with fileFrameCount := s.fileFrameCount + sz } := by
          unfold pushChunk
          rw [if_neg hsz]
        rw [hstep]
        have hsz0 : (sz : Int) = 0 := by omega
        refine ih _ ?_ ?_
        · show s.cumIn = s.fileFrameCount + (sz : Int)
          omega
        · exact h2

/-- The final flush lands on exactly `⌊N·r⌋` output frames. -/
theorem finishPush_frameCount {r : ℚ} (hr : 0 < r) {s : RState} (lsz : Nat)
    (h1 : s.cumIn = s.fileFrameCount)
    (h2 : s.frameCount = ⌊(s.cumIn : ℚ) * r⌋) :
    (finishPush r s lsz).frameCount =
      ⌊((finishPush r s lsz).fileFrameCount : ℚ) * r⌋ ∧
    (finishPush r s lsz).fileFrameCount = s.fileFrameCount + lsz := by
  rw [h1] at h2
  have hfc1 : s.frameCount + (if 0 < lsz then resampleOut r s.cumIn lsz else 0) =
      ⌊((s.fileFrameCount + (lsz : Int) : Int) : ℚ) * r⌋ := by
    by_cases hl : 0 < lsz
    · rw [if_pos hl]
      unfold resampleOut
      rw [h1]
      omega
    · rw [if_neg hl]
      have hl0 : (lsz : Int) = 0 := by omega
      rw [hl0, add_zero, add_zero]
      omega
  constructor
  · simp only [finishPush]
    rw [hfc1, h1]
    set P := (if (((⌊((s.fileFrameCount + (lsz : Int) : Int) : ℚ) * r⌋ : Int)) : ℚ) / r <
        ((s.fileFrameCount + (lsz : Int) : Int) : ℚ)
      then (s.fileFrameCount + (lsz : Int)) -
        ⌊((⌊((s.fileFrameCount + (lsz : Int) : Int) : ℚ) * r⌋ : Int) : ℚ) / r⌋ + 1
      else (1 : Int)) with hPdef
    have hP : 0 ≤ P := by
      rw [hPdef]
      split
      · rename_i hlt
        have hfl := Int.floor_lt.2 hlt
        omega
      · omega
    have hO : 0 ≤ resampleOut r (s.fileFrameCount + (lsz : Int)) P :=
      resampleOut_nonneg (le_of_lt hr) hP
    split
    · omega
    · omega
  · simp only [finishPush]

end Resamp

open Resamp in
/-- **C7.** (The resampler itself is spec-modelled: `base/Resampler` is
not among the staged sources.)  For a decode that pushes its source
frames in any chunking and then finishes, with ratio `r = tr/sr`, the
final output frame count equals `⌊N·r⌋` for `N` the total pushed
source frames — the pad flush clips to exactly
`sv_frame_t(fileFrameCount · ratio)` — hence it never exceeds
`round(N·r)` and differs from `round(N·r)` by at most 1. -/
theorem claim_C7_resample_length (tr sr : Nat) (htr : 0 < tr) (hsr : 0 < sr)
    (r : ℚ) (hrq : r = (tr : ℚ) / (sr : ℚ)) (chunks : List Nat) (lsz : Nat) :
    (finishPush r (chunks.foldl (pushChunk r) rsInit) lsz).frameCount =
      ⌊((finishPush r (chunks.foldl (pushChunk r) rsInit) lsz).fileFrameCount : ℚ) * r⌋ ∧
    (finishPush r (chunks.foldl (pushChunk r) rsInit) lsz).frameCount ≤
      rnd (((finishPush r (chunks.foldl (pushChunk r) rsInit) lsz).fileFrameCount : ℚ) * r) ∧
    |(finishPush r (chunks.foldl (pushChunk r) rsInit) lsz).frameCount -
      rnd (((finishPush r (chunks.foldl (pushChunk r) rsInit) lsz).fileFrameCount : ℚ) * r)| ≤ 1 := by
  have htr' : (0 : ℚ) < tr := by exact_mod_cast htr
  have hsr' : (0 : ℚ) < sr := by exact_mod_cast hsr
  have hr : 0 < r := by
    rw [hrq]
    exact div_pos htr' hsr'
  obtain ⟨hc1, hc2⟩ := pushChunk_inv r chunks rsInit rfl (by simp [rsInit])
  obtain ⟨hM, hN⟩ := finishPush_frameCount hr lsz hc1 hc2
  refine ⟨hM, ?_, ?_⟩
  · rw [hM]
    exact floor_le_rnd _
  · rw [hM]
    have ha := floor_le_rnd
      (((finishPush r (chunks.foldl (pushChunk r) rsInit) lsz).fileFrameCount : ℚ) * r)
    have hb := rnd_le_floor_add_one
      (((finishPush r (chunks.foldl (pushChunk r) rsInit) lsz).fileFrameCount : ℚ) * r)
    rw [abs_le]
    constructor <;> omega

open Resamp in
theorem claim_C7_resample_length_witness :
    (finishPush ((3 : ℚ) / (2 : ℚ))
        ([2].foldl (pushChunk ((3 : ℚ) / (2 : ℚ))) rsInit) 1).frameCount =
      ⌊((finishPush ((3 : ℚ) / (2 : ℚ))
        ([2].foldl (pushChunk ((3 : ℚ) / (2 : ℚ))) rsInit) 1).fileFrameCount : ℚ) *
        ((3 : ℚ) / (2 : ℚ))⌋ ∧
    (finishPush ((3 : ℚ) / (2 : ℚ))
        ([2].foldl (pushChunk ((3 : ℚ) / (2 : ℚ))) rsInit) 1).frameCount ≤
      rnd (((finishPush ((3 : ℚ) / (2 : ℚ))
        ([2].foldl (pushChunk ((3 : ℚ) / (2 : ℚ))) rsInit) 1).fileFrameCount : ℚ) *
        ((3 : ℚ) / (2 : ℚ))) ∧
    |(finishPush ((3 : ℚ) / (2 : ℚ))
        ([2].foldl (pushChunk ((3 : ℚ) / (2 : ℚ))) rsInit) 1).frameCount -
      rnd (((finishPush ((3 : ℚ) / (2 : ℚ))
        ([2].foldl (pushChunk ((3 : ℚ) / (2 : ℚ))) rsInit) 1).fileFrameCount : ℚ) *
        ((3 : ℚ) / (2 : ℚ)))| ≤ 1 :=
  claim_C7_resample_length 3 2 (by decide) (by decide) ((3 : ℚ) / (2 : ℚ))
    (by norm_num) [2] 1

/-! ## FeatureExtractionModelTransformer

`FeatureExtractionModelTransformer::run` (lines 1002-1185),
`setCompletion` (1420-1470) and `addFeature` (1247-1418).  The run's
completion reports: `setCompletion(j, 0)` before the block loop; inside
the loop `completion = ((blockFrame − contextStart)/stepSize · 99) /
(contextDuration/stepSize + 1)`, emitted when `blockFrame ==
contextStart` or `completion > prevCompletion`; after the loop (also
when the loop was left via an `m_abandoned` break)
`setCompletion(j, 100)`.  The `long` frame quantities here are
nonnegative (`contextStart` is clamped to the model's start frame, the
duration to the remaining extent), so they are modelled as `Nat` and
the C++ integer division is `Nat` division. -/

namespace Fex

/-- Emissions of the time-domain block loop (lines 1108-1161): one
iteration per fuel unit starting at `blockFrame = bf` with previous
completion `prev`.  Exhausting the fuel before the loop condition fails
models an `m_abandoned` break partway through. -/
def emitLoop (cs cd step : Nat) : Nat → Nat → Nat → List Nat
  | 0, _, _ => []
  | fuel + 1, bf, prev =>
      if cs + cd ≤ bf then []
      else
        if bf = cs ∨ prev < (bf - cs) / step * 99 / (cd / step + 1) then
          (bf - cs) / step * 99 / (cd / step + 1) ::
            emitLoop cs cd step fuel (bf + step)
              ((bf - cs) / step * 99 / (cd / step + 1))
        else
          emitLoop cs cd step fuel (bf + step) prev

/-- The completion values reported for one output over a run that
reaches the block loop: the initial 0, the loop's emissions (truncated
at `fuel` iterations when abandoned mid-loop), and the final 100 that
runs after the loop whether or not it was abandoned. -/
def runTrace (cs cd step fuel : Nat) : List Nat :=
  0 :: emitLoop cs cd step fuel cs 0 ++ [100]

/-- A whole run, including the paths that never reach the block loop:
when `m_abandoned` is set while waiting for the input model to become
ready (lines 1011-1016) the run returns before any `setCompletion`
call, reporting nothing. -/
def runTraceFull (abandonedBeforeReady : Bool) (cs cd step fuel : Nat) : List Nat :=
  if abandonedBeforeReady then [] else runTrace cs cd step fuel

/-- Inside the loop every completion value is at most 99. -/
theorem comp_le_99 {cs cd step bf : Nat}
    (hlt : bf < cs + cd) : (bf - cs) / step * 99 / (cd / step + 1) ≤ 99 := by
  have hk : (bf - cs) / step ≤ cd / step :=
    Nat.div_le_div_right (by omega)
  revert hk
  generalize (bf - cs) / step = k
  generalize cd / step = q
  intro hk
  exact Nat.div_le_of_le_mul (by omega)

/-- Past the first block, the emissions strictly exceed the incoming
`prevCompletion`, stay at most 99, and are strictly increasing. -/
theorem emitLoop_tail_spec (cs cd step : Nat) (hstep : 0 < step) :
    ∀ (fuel : Nat) (bf prev : Nat), cs < bf →
      (∀ y ∈ emitLoop cs cd step fuel bf prev, prev < y ∧ y ≤ 99) ∧
      List.Chain' (· < ·) (emitLoop cs cd step fuel bf prev) := by
  intro fuel
  induction fuel with
  | zero =>
      intro bf prev _
      exact ⟨(by intro y hy; cases hy), List.chain'_nil⟩
  | succ fuel ih =>
      intro bf prev hbf
      unfold emitLoop
      by_cases hstop : cs + cd ≤ bf
      · rw [if_pos hstop]
        exact ⟨(by intro y hy; cases hy), List.chain'_nil⟩
      · rw [if_neg hstop]
        have hc99 : (bf - cs) / step * 99 / (cd / step + 1) ≤ 99 :=
          comp_le_99 (by omega)
        by_cases hemit : bf = cs ∨ prev < (bf - cs) / step * 99 / (cd / step + 1)
        · rw [if_pos hemit]
          have hgt : prev < (bf - cs) / step * 99 / (cd / step + 1) := by
            rcases hemit with heq | h
            · omega
            · exact h
          obtain ⟨hall, hchain⟩ := ih (bf + step)
            ((bf - cs) / step * 99 / (cd / step + 1)) (by omega)
          refine ⟨?_, ?_⟩
          · intro y hy
            rcases List.mem_cons.1 hy with rfl | hy
            · exact ⟨hgt, hc99⟩
            · obtain ⟨h1, h2⟩ := hall y hy
              exact ⟨lt_trans hgt h1, h2⟩
          · rw [List.chain'_cons']
            refine ⟨?_, hchain⟩
            intro z hz
            have hzmem : z ∈ emitLoop cs cd step fuel (bf + step)
                ((bf - cs) / step * 99 / (cd / step + 1)) :=
              List.mem_of_mem_head? hz
            exact (hall z hzmem).1
        · rw [if_neg hemit]
          exact ih (bf + step) prev (by omega)

/-- The first loop iteration emits 0 (`blockFrame == contextStart`,
completion 0); every later emission is strictly positive, at most 99,
and strictly increasing. -/
theorem emitLoop_head_spec (cs cd step : Nat) (hstep : 0 < step) (fuel : Nat) :
    (∀ y ∈ emitLoop cs cd step fuel cs 0, y ≤ 99) ∧
    List.Chain' (· < ·) (emitLoop cs cd step fuel cs 0) := by
  cases fuel with
  | zero => exact ⟨(by intro y hy; cases hy), List.chain'_nil⟩
  | succ fuel =>
      unfold emitLoop
      by_cases hstop : cs + cd ≤ cs
      · rw [if_pos hstop]
        exact ⟨(by intro y hy; cases hy), List.chain'_nil⟩
      · rw [if_neg hstop]
        rw [if_pos (Or.inl rfl)]
        have hzero : (cs - cs) / step * 99 / (cd / step + 1) = 0 := by
          simp [Nat.sub_self]
        rw [hzero]
        obtain ⟨hall, hchain⟩ :=
          emitLoop_tail_spec cs cd step hstep fuel (cs + step) 0 (by omega)
        refine ⟨?_, ?_⟩
        · intro y hy
          rcases List.mem_cons.1 hy with rfl | hy
          · omega
          · exact (hall y hy).2
        · rw [List.chain'_cons']
          refine ⟨?_, hchain⟩
          intro z hz
          exact (hall z (List.mem_of_mem_head? hz)).1

end Fex

open Fex in
/-- **C8 (corrected).** For a time-domain run that reaches the block
loop (with positive step size), the reported completion trace is
non-decreasing, every value before the final report is at most 99, the
loop's emissions are strictly increasing (a value is only emitted when
it strictly exceeds the previous one, after the mandatory first-block
report), and the trace ends at exactly 100 — *including* runs whose
loop is cut short by the `abandoned` flag (any `fuel`).  The
correction: a run abandoned while still waiting for the input model to
become ready returns before any report, so its trace is empty and in
particular does not end at 100 (see the counterexample). -/
theorem claim_C8_completion_trace (cs cd step fuel : Nat) (hstep : 0 < step) :
    (runTrace cs cd step fuel).getLast? = some 100 ∧
    (∀ y ∈ (runTrace cs cd step fuel).dropLast, y ≤ 99) ∧
    List.Chain' (· ≤ ·) (runTrace cs cd step fuel) ∧
    List.Chain' (· < ·) (emitLoop cs cd step fuel cs 0) := by
  obtain ⟨hall, hchain⟩ := emitLoop_head_spec cs cd step hstep fuel
  refine ⟨?_, ?_, ?_, hchain⟩
  · unfold runTrace
    exact List.getLast?_concat _
  · unfold runTrace
    rw [List.dropLast_concat]
    intro y hy
    rcases List.mem_cons.1 hy with rfl | hy
    · omega
    · exact hall y hy
  · unfold runTrace
    rw [List.chain'_append]
    refine ⟨?_, List.chain'_singleton _, ?_⟩
    · rw [List.chain'_cons']
      constructor
      · intro y _
        omega
      · exact List.Chain'.imp (fun a b h => le_of_lt h) hchain
    · intro x hx y hy
      have hy100 : y = 100 := by
        simp only [List.head?_cons, Option.mem_def, Option.some.injEq] at hy
        omega
      subst hy100
      have hxmem : x ∈ 0 :: emitLoop cs cd step fuel cs 0 := by
        have := List.getLast?_eq_some_iff.1 (Option.mem_def.1 hx)
        obtain ⟨ys, hys⟩ := this
        rw [hys]
        simp
      rcases List.mem_cons.1 hxmem with rfl | hxmem
      · omega
      · have := hall x hxmem
        omega

open Fex in
theorem claim_C8_completion_trace_witness :
    (runTrace 0 10 2 10).getLast? = some 100 ∧
    (∀ y ∈ (runTrace 0 10 2 10).dropLast, y ≤ 99) ∧
    List.Chain' (· ≤ ·) (runTrace 0 10 2 10) ∧
    List.Chain' (· < ·) (emitLoop 0 10 2 10 0 0) :=
  claim_C8_completion_trace 0 10 2 10 (by decide)

open Fex in
/-- Counterexample to C8 as stated: a run whose `abandoned` flag is set
while waiting for the input model to become ready exits before any
`setCompletion` call — its trace is empty, so no completion of 100 is
ever reported. -/
theorem claim_C8_completion_counterexample :
    (runTraceFull true 0 10 2 10).getLast? ≠ some 100 := by
  decide

/-! ### `addFeature` NoteModel routing (lines 1327-1402) -/

namespace Fex2

/-- A `NoteModel::Point` as built by `addFeature`: pitch value,
`lrintf(duration)`, and `velocity / 127`. -/
structure NotePoint where
  value : ℚ
  duration : Int
  level : ℚ
deriving DecidableEq

/-- `addFeature`'s Note branch (lines 1329-1377): `index` starts at 0;
`value` consumes `values[index]` when present; `duration` is
`realTime2Frame(feature.duration, inputRate)` when `hasDuration` (that
conversion, from `base/RealTime` outside the staged sources, is passed
in as `rtDur`), else consumes `values[index]` when present, else 1;
`velocity` reads `values[index]` when present (default 100), then maps
anything below 0 or above 127 to 127; the point stores
`lrintf(duration)` and `velocity / 127`. -/
def addFeatureNote (hasDuration : Bool) (rtDur : ℚ) (values : List ℚ) : NotePoint :=
  let value : ℚ := if 0 < values.length then values.getD 0 0 else 0
  let index1 : Nat := if 0 < values.length then 1 else 0
  let duration : ℚ :=
    if hasDuration then rtDur
    else if index1 < values.length then values.getD index1 0 else 1
  let index2 : Nat :=
    if hasDuration then index1
    else if index1 < values.length then index1 + 1 else index1
  let velocity0 : ℚ := if index2 < values.length then values.getD index2 0 else 100
  let velocity1 : ℚ := if velocity0 < 0 then 127 else velocity0
  let velocity2 : ℚ := if velocity1 > 127 then 127 else velocity1
  ⟨value, rnd duration, velocity2 / 127⟩

/-- The Note point as worded in claim C9: value from `values[0]`,
duration from `realTime2Frame` or `values[1]` or 1, velocity *always*
from `values[2]` (default 100) *clamped* into `[0, 127]`. -/
def claimNote (hasDuration : Bool) (rtDur : ℚ) (values : List ℚ) : NotePoint :=
  let value : ℚ := values.getD 0 0
  let duration : ℚ :=
    if hasDuration then rtDur
    else if 1 < values.length then values.getD 1 0 else 1
  let raw : ℚ := if 2 < values.length then values.getD 2 0 else 100
  let vel : ℚ := max 0 (min 127 raw)
  ⟨value, rnd duration, vel / 127⟩

/-- The Note point with the claim's velocity sentence corrected: the
velocity index is the next unconsumed one — `values[1]` when
`hasDuration` (the duration consumed nothing), `values[2]` otherwise —
with default 100, and out-of-range values (below 0 or above 127) become
127 rather than being clamped to 0. -/
def amendedNote (hasDuration : Bool) (rtDur : ℚ) (values : List ℚ) : NotePoint :=
  let value : ℚ := values.getD 0 0
  let duration : ℚ :=
    if hasDuration then rtDur
    else if 1 < values.length then values.getD 1 0 else 1
  let raw : ℚ :=
    if hasDuration then
      if 1 < values.length then values.getD 1 0 else 100
    else
      if 2 < values.length then values.getD 2 0 else 100
  let vel : ℚ := if raw < 0 then 127 else if raw > 127 then 127 else raw
  ⟨value, rnd duration, vel / 127⟩

end Fex2

open Fex2 in
/-- **C9 (corrected).** `addFeature`'s NoteModel routing stores value
`values[0]` (else 0) and duration `realTime2Frame(feature.duration,
inputRate)` when `hasDuration`, else `values[1]` when present, else 1 —
as claimed — but the velocity comes from the next *unconsumed* index
(`values[1]` when `hasDuration`, since the duration then consumed no
value; `values[2]` otherwise), with default 100, and a velocity below 0
is mapped to 127, not clamped to 0. -/
theorem claim_C9_note_feature (hasDuration : Bool) (rtDur : ℚ) (values : List ℚ) :
    addFeatureNote hasDuration rtDur values = amendedNote hasDuration rtDur values := by
  cases hasDuration <;>
    rcases values with _ | ⟨a, _ | ⟨b, _ | ⟨c, t⟩⟩⟩ <;>
      simp [addFeatureNote, amendedNote] <;>
        norm_num <;>
          split_ifs <;>
            rfl

open Fex2 in
/-- Counterexample to C9 as stated: for a durationful note feature with
`values = [60, 13]` the code takes the velocity from `values[1] = 13`
(the duration consumed no value), while the claim's `values[2]` is
absent and defaults to 100; and for `values = [60, 70, -5]` without
duration the code maps the negative velocity to 127 while the claim's
clamp gives 0. -/
theorem claim_C9_note_counterexample :
    addFeatureNote true 5 [60, 13] ≠ claimNote true 5 [60, 13] ∧
    addFeatureNote false 5 [60, 70, -5] ≠ claimNote false 5 [60, 70, -5] := by
  constructor <;> with_unfolding_all decide

open Alignment in
/-- **C10.** If the model was constructed with a null raw path, or a
raw path whose derived path has no points, then both `toReference` and
`fromReference` are the identity. -/
theorem claim_C10_identity_mapping (m : AlignmentModel) (q : Int)
    (h : m.rawPath = none ∨
      ∃ raw, m.rawPath = some raw ∧ constructPath raw m.alignedRate = []) :
    m.toReference q = q ∧ m.fromReference q = q := by
  rcases h with h | ⟨raw, hr, hp⟩
  · simp [AlignmentModel.toReference, AlignmentModel.fromReference, h]
  · have hraw : raw = [] := constructPath_eq_nil_iff.1 hp
    subst hraw
    simp [AlignmentModel.toReference, AlignmentModel.fromReference, hr,
      align, constructPath, constructReversePath]

open Alignment in
theorem claim_C10_identity_mapping_witness :
    (AlignmentModel.mk none 1).toReference 7 = 7 ∧
    (AlignmentModel.mk none 1).fromReference 7 = 7 :=
  claim_C10_identity_mapping (AlignmentModel.mk none 1) 7 (Or.inl rfl)

end Svcore
